import Mathlib

/-!
A verification development for the evolvable neural-network core of the
Ceberus repository (file src/ai/mod.rs).  The Rust code is shallowly
embedded: f32 scalars are modelled as rationals, Vec storage as lists, and
the rand crate's distributions as an explicit randomness stream threaded
through every constructive operation.  All definitions are translated from
the Rust source; the definitions whose names begin with spec are the one
exception, they follow the specification's words and are used only to
compare against the source-derived definitions.
-/

set_option maxRecDepth 40000

namespace Ceberus

/-- INPUT_DIM from the source: fixed input width 16. -/
def INPUT_DIM : Nat := 16

/-- OUTPUT_DIM from the source: fixed output width 5. -/
def OUTPUT_DIM : Nat := 5

/-- MIN_HIDDEN_UNITS from the source. -/
def MIN_HIDDEN_UNITS : Nat := 8

/-- MAX_HIDDEN_UNITS from the source. -/
def MAX_HIDDEN_UNITS : Nat := 40

/-- MAX_HIDDEN_LAYERS from the source. -/
def MAX_HIDDEN_LAYERS : Nat := 4

/-- Layer from the source: weights are a flat row-major out_dim x in_dim
block, biases have out_dim entries.  f32 values are modelled as rationals. -/
structure Layer where
  in_dim : Nat
  out_dim : Nat
  w : List ℚ
  b : List ℚ
deriving DecidableEq

instance : Inhabited Layer := ⟨⟨0, 0, [], []⟩⟩

/-- Net from the source: the ordered list of layers, the last one being the
output layer. -/
structure Net where
  layers : List Layer
deriving DecidableEq

instance : Inhabited Net := ⟨⟨[]⟩⟩

/-- The randomness source (rand crate Rng) modelled as two infinite streams
of raw draws, one for float samples and one for integer samples, with a
cursor into each.  Every sample consumes one raw draw. -/
structure Rng where
  floats : Nat → ℚ
  nats : Nat → Nat
  fi : Nat
  ni : Nat

/-- Sampling from Uniform::new(lo, hi) for floats: a value in the half-open
interval from lo to hi.  The raw stream value is used when it already lies
in the interval and lo is produced otherwise, so every result is in range
and every in-range value is attainable by some stream.  The rand crate
requires lo < hi at construction time; call sites where that can fail are
modelled explicitly (see crossover_mutate). -/
def sampleF (lo hi : ℚ) (r : Rng) : ℚ × Rng :=
  (if lo ≤ r.floats r.fi ∧ r.floats r.fi < hi then r.floats r.fi else lo,
   ⟨r.floats, r.nats, r.fi + 1, r.ni⟩)

/-- Sampling from Uniform::new(lo, hi) for usize: a value in the half-open
range, modelled by reducing the raw stream value modulo the range size.
The rand crate requires lo < hi; every call site in the source guards this. -/
def sampleN (lo hi : Nat) (r : Rng) : Nat × Rng :=
  (lo + r.nats r.ni % (hi - lo), ⟨r.floats, r.nats, r.fi, r.ni + 1⟩)

/-- Sampling from Uniform::new_inclusive(lo, hi) for usize: a value in the
closed range. -/
def sampleNInc (lo hi : Nat) (r : Rng) : Nat × Rng :=
  (lo + r.nats r.ni % (hi - lo + 1), ⟨r.floats, r.nats, r.fi, r.ni + 1⟩)

/-- A sequence of n successive float samples from the same distribution,
mirroring the source loops that fill a freshly allocated Vec. -/
def sampleList (lo hi : ℚ) : Nat → Rng → List ℚ × Rng
  | 0, r => ([], r)
  | n + 1, r =>
    let v := sampleF lo hi r
    let rest := sampleList lo hi n v.2
    (v.1 :: rest.1, rest.2)

/-- Layer::new_random from the source: every weight then every bias drawn
from Uniform::new(-scale, scale).  All call sites in the source pass
scale = 0.1, for which the distribution is well formed. -/
def Layer.new_random (in_dim out_dim : Nat) (scale : ℚ) (r : Rng) : Layer × Rng :=
  let ws := sampleList (-scale) scale (out_dim * in_dim) r
  let bs := sampleList (-scale) scale out_dim ws.2
  (⟨in_dim, out_dim, ws.1, bs.1⟩, bs.2)

/-- rand_hidden_units from the source: Uniform::new_inclusive over the
closed range from MIN_HIDDEN_UNITS to MAX_HIDDEN_UNITS. -/
def rand_hidden_units (r : Rng) : Nat × Rng :=
  sampleNInc MIN_HIDDEN_UNITS MAX_HIDDEN_UNITS r

/-- The loop body of Net::from_hidden_sizes: chain layers through the given
hidden sizes starting from the running input width, then append the output
layer. -/
def from_hidden_sizes_aux : List Nat → Nat → Rng → List Layer × Rng
  | [], in_dim, r =>
    let l := Layer.new_random in_dim OUTPUT_DIM (1/10) r
    ([l.1], l.2)
  | h :: t, in_dim, r =>
    let l := Layer.new_random in_dim h (1/10) r
    let rest := from_hidden_sizes_aux t h l.2
    (l.1 :: rest.1, rest.2)

/-- Net::from_hidden_sizes from the source. -/
def Net.from_hidden_sizes (sizes : List Nat) (r : Rng) : Net × Rng :=
  let ls := from_hidden_sizes_aux sizes INPUT_DIM r
  (⟨ls.1⟩, ls.2)

/-- Net::new_random from the source: one hidden width, a second one with
probability 0.25, then from_hidden_sizes. -/
def Net.new_random (r : Rng) : Net × Rng :=
  let h1 := rand_hidden_units r
  let coin := sampleF 0 1 h1.2
  if coin.1 < 1/4 then
    let h2 := rand_hidden_units coin.2
    Net.from_hidden_sizes [h1.1, h2.1] h2.2
  else
    Net.from_hidden_sizes [h1.1] coin.2

/-- One layer of Net::forward: for each output unit start from the bias and
accumulate the weighted inputs, then ReLU unless this is the last layer. -/
def applyLayer (l : Layer) (isLast : Bool) (a : List ℚ) : List ℚ :=
  (List.range l.out_dim).map (fun o =>
    let acc := (List.range l.in_dim).foldl
      (fun s i => s + l.w.getD (o * l.in_dim + i) 0 * a.getD i 0) (l.b.getD o 0)
    if isLast then acc else max acc 0)

/-- The layer loop of Net::forward. -/
def forwardAux : List Layer → List ℚ → List ℚ
  | [], a => a
  | [l], a => applyLayer l true a
  | l :: l2 :: ls, a => forwardAux (l2 :: ls) (applyLayer l false a)

/-- Net::forward from the source: propagate through the layers, then copy
the first OUTPUT_DIM entries of the final activation into the fixed-size
result. -/
def Net.forward (net : Net) (x : List ℚ) : List ℚ :=
  let a := forwardAux net.layers x
  (List.range OUTPUT_DIM).map (fun i => a.getD i 0)

/-- List.map with the element index passed to the function, used to express
the in-place indexed update loops of the source. -/
def mapIdxFrom (f : Nat → ℚ → ℚ) : Nat → List ℚ → List ℚ
  | _, [] => []
  | k, v :: vs => f k v :: mapIdxFrom f (k + 1) vs

/-- The blending step of crossover_mutate for one pair of corresponding
layers: positions inside the overlapping block (output row below both
out_dims, input column below both in_dims) become the average of the two
parents' values; every other position keeps the template's value.  The flat
child index ci decomposes as row ci / in_dim and column ci mod in_dim. -/
def blendLayer (cl ol : Layer) : Layer :=
  let in_min := min cl.in_dim ol.in_dim
  let out_min := min cl.out_dim ol.out_dim
  let w' := mapIdxFrom (fun ci v =>
    if ci / cl.in_dim < out_min ∧ ci % cl.in_dim < in_min then
      (1/2) * (v + ol.w.getD ((ci / cl.in_dim) * ol.in_dim + ci % cl.in_dim) 0)
    else v) 0 cl.w
  let b' := mapIdxFrom (fun o v =>
    if o < out_min then (1/2) * (v + ol.b.getD o 0) else v) 0 cl.b
  ⟨cl.in_dim, cl.out_dim, w', b'⟩

/-- The blending loop of crossover_mutate: layer indices present in both
parents are blended, template layers beyond the other parent's length are
kept unchanged. -/
def blendLayers : List Layer → List Layer → List Layer
  | [], _ => []
  | c :: cs, [] => c :: cs
  | c :: cs, o :: os => blendLayer c o :: blendLayers cs os

/-- The point-mutation loop of crossover_mutate over one value vector: for
each scalar draw a coin from Uniform::new(0,1); when it is below the rate,
add a perturbation drawn from Uniform::new(-mag, mag). -/
def mutateList (rate mag : ℚ) : List ℚ → Rng → List ℚ × Rng
  | [], r => ([], r)
  | v :: vs, r =>
    let c := sampleF 0 1 r
    let p := if c.1 < rate then
        let n := sampleF (-mag) mag c.2
        (v + n.1, n.2)
      else (v, c.2)
    let rest := mutateList rate mag vs p.2
    (p.1 :: rest.1, rest.2)

/-- The point-mutation loop over all layers: for each layer in order, the
weights then the biases. -/
def mutateLayers (rate mag : ℚ) : List Layer → Rng → List Layer × Rng
  | [], r => ([], r)
  | l :: ls, r =>
    let ws := mutateList rate mag l.w r
    let bs := mutateList rate mag l.b ws.2
    let rest := mutateLayers rate mag ls bs.2
    (⟨l.in_dim, l.out_dim, ws.1, bs.1⟩ :: rest.1, rest.2)

/-- The next-layer rebuild loop of add_neurons: for each output row, copy
the first in_min existing input columns and freshly randomize the new
columns, rows concatenated in order. -/
def buildNextRows (oldw : List ℚ) (old_in in_min new_in : Nat) :
    List Nat → Rng → List ℚ × Rng
  | [], r => ([], r)
  | o :: os, r =>
    let copied := (List.range in_min).map (fun i => oldw.getD (o * old_in + i) (0 : ℚ))
    let fresh := sampleList (-(1/10)) (1/10) (new_in - in_min) r
    let rest := buildNextRows oldw old_in in_min new_in os fresh.2
    (copied ++ fresh.1 ++ rest.1, rest.2)

/-- add_neurons from the source: grow hidden layer hid_idx by 1 to 4 output
units, capped at MAX_HIDDEN_UNITS, copying all existing rows and biases,
randomizing the new ones, and rebuilding the following layer's weight block
with the existing columns preserved. -/
def add_neurons (net : Net) (hid_idx : Nat) (r : Rng) : Net × Rng :=
  let len := net.layers.length
  if len < 2 then (net, r)
  else if len ≤ hid_idx + 1 then (net, r)
  else
    let l := net.layers.getD hid_idx default
    let nxt := net.layers.getD (hid_idx + 1) default
    let adds := sampleNInc 1 4 r
    let new_out := min (l.out_dim + adds.1) MAX_HIDDEN_UNITS
    if new_out = l.out_dim then (net, adds.2)
    else
      let oldW := (List.range (l.out_dim * l.in_dim)).map (fun p => l.w.getD p 0)
      let freshW := sampleList (-(1/10)) (1/10) ((new_out - l.out_dim) * l.in_dim) adds.2
      let oldB := (List.range l.out_dim).map (fun p => l.b.getD p 0)
      let freshB := sampleList (-(1/10)) (1/10) (new_out - l.out_dim) freshW.2
      let l' : Layer := ⟨l.in_dim, new_out, oldW ++ freshW.1, oldB ++ freshB.1⟩
      let in_min := min nxt.in_dim new_out
      let rows := buildNextRows nxt.w nxt.in_dim in_min new_out (List.range nxt.out_dim) freshB.2
      let nxt' : Layer := ⟨new_out, nxt.out_dim, rows.1, nxt.b⟩
      (⟨(net.layers.set hid_idx l').set (hid_idx + 1) nxt'⟩, rows.2)

/-- Insertion into a layer list at a position, mirroring Vec::insert.  Every
call site in the source passes a position at most the list length. -/
def insertAt : Nat → Layer → List Layer → List Layer
  | 0, x, ls => x :: ls
  | _ + 1, x, [] => [x]
  | n + 1, x, y :: ls => y :: insertAt n x ls

/-- add_hidden_layer from the source: insert a freshly randomized layer at
pos, whose input width is the preceding layer's output width (INPUT_DIM when
pos is 0), then rewire the layer now following it: its whole weight block is
freshly randomized with the new input width, its out_dim and biases are kept. -/
def add_hidden_layer (net : Net) (pos : Nat) (r : Rng) : Net × Rng :=
  if net.layers.isEmpty then (net, r)
  else
    let nu := rand_hidden_units r
    let prev_in := if pos = 0 then INPUT_DIM else (net.layers.getD (pos - 1) default).out_dim
    let nl := Layer.new_random prev_in nu.1 (1/10) nu.2
    let layers1 := insertAt pos nl.1 net.layers
    if pos + 1 < layers1.length then
      let nxt := layers1.getD (pos + 1) default
      let fw := sampleList (-(1/10)) (1/10) (nxt.out_dim * nu.1) nl.2
      (⟨layers1.set (pos + 1) ⟨nu.1, nxt.out_dim, fw.1, nxt.b⟩⟩, fw.2)
    else (⟨layers1⟩, nl.2)

/-- Template selection of crossover_mutate: a coin from Uniform::new(0,1);
below one half the dad is the template, otherwise the mom.  Returns the
template, the other parent, and the advanced randomness source. -/
def pick_template (dad mom : Net) (r : Rng) : Net × Net × Rng :=
  let coin := sampleF 0 1 r
  if coin.1 < 1/2 then (dad, mom, coin.2) else (mom, dad, coin.2)

/-- The insertion-position computation of the depth-growth step of
crossover_mutate: position 0 without a draw when the child has at most one
layer, otherwise Uniform::new(0, len - 1). -/
def depth_growth_pos (len : Nat) (r : Rng) : Nat × Rng :=
  if len ≤ 1 then (0, r) else sampleN 0 (len - 1) r

/-- Step 3 of crossover_mutate: point mutation of every weight and bias. -/
def mutation_step (rate mag : ℚ) (n : Net) (r : Rng) : Net × Rng :=
  let mz := mutateLayers rate mag n.layers r
  (⟨mz.1⟩, mz.2)

/-- Step 4 of crossover_mutate: with probability p_add_neurons and only when
the child has at least two layers, grow one hidden layer picked from
Uniform::new(0, hidden count). -/
def width_growth_step (p_add_neurons : ℚ) (n : Net) (r : Rng) : Net × Rng :=
  let c2 := sampleF 0 1 r
  if c2.1 < p_add_neurons then
    if 2 ≤ n.layers.length then
      let tgt := sampleN 0 (n.layers.length - 1) c2.2
      add_neurons n tgt.1 tgt.2
    else (n, c2.2)
  else (n, c2.2)

/-- Step 5 of crossover_mutate: with probability p_add_layer and only when
the hidden-layer count is below MAX_HIDDEN_LAYERS, insert a new hidden layer
at the position computed by depth_growth_pos. -/
def depth_growth_step (p_add_layer : ℚ) (n : Net) (r : Rng) : Net × Rng :=
  let c3 := sampleF 0 1 r
  if c3.1 < p_add_layer ∧ n.layers.length - 1 < MAX_HIDDEN_LAYERS then
    let ps := depth_growth_pos n.layers.length c3.2
    add_hidden_layer n ps.1 ps.2
  else (n, c3.2)

/-- crossover_mutate from the source: template selection, weight blending,
point mutation, width growth, depth growth, in that order on one randomness
stream.  The result is none exactly when the construction of the noise
distribution Uniform::new(-mutation_mag, mutation_mag) panics in the rand
crate, which happens unless -mutation_mag < mutation_mag; every other
distribution construction in this call tree is guarded by the source so
that its range is nonempty. -/
def crossover_mutate (dad mom : Net) (r : Rng)
    (mutation_rate mutation_mag p_add_neurons p_add_layer : ℚ) : Option (Net × Rng) :=
  let tor := pick_template dad mom r
  let child0 : Net := ⟨blendLayers tor.1.layers tor.2.1.layers⟩
  if -mutation_mag < mutation_mag then
    let m := mutation_step mutation_rate mutation_mag child0 tor.2.2
    let s4 := width_growth_step p_add_neurons m.1 m.2
    some (depth_growth_step p_add_layer s4.1 s4.2)
  else none

/-- The storage invariant of a Layer from the specification's data model:
the flat weight vector holds out_dim times in_dim values and the bias vector
out_dim values. -/
def Layer.wf (l : Layer) : Prop :=
  l.w.length = l.out_dim * l.in_dim ∧ l.b.length = l.out_dim

instance (l : Layer) : Decidable (Layer.wf l) := by
  unfold Layer.wf; infer_instance

/-- The structural invariants of a Net: first input width INPUT_DIM,
adjacent dimensions matching, last output width OUTPUT_DIM, hidden-layer
count between 1 and MAX_HIDDEN_LAYERS, every hidden output width between
MIN_HIDDEN_UNITS and MAX_HIDDEN_UNITS, and every layer storing well-formed
vectors. -/
def Net.valid (n : Net) : Prop :=
  2 ≤ n.layers.length ∧ n.layers.length ≤ MAX_HIDDEN_LAYERS + 1 ∧
  (n.layers.getD 0 default).in_dim = INPUT_DIM ∧
  (∀ i < n.layers.length - 1,
    (n.layers.getD (i + 1) default).in_dim = (n.layers.getD i default).out_dim) ∧
  (n.layers.getD (n.layers.length - 1) default).out_dim = OUTPUT_DIM ∧
  (∀ i < n.layers.length - 1,
    MIN_HIDDEN_UNITS ≤ (n.layers.getD i default).out_dim ∧
    (n.layers.getD i default).out_dim ≤ MAX_HIDDEN_UNITS) ∧
  (∀ i < n.layers.length, Layer.wf (n.layers.getD i default))

instance (n : Net) : Decidable (Net.valid n) := by
  unfold Net.valid; infer_instance

/-- The dimension data of a layer, used to state topology preservation. -/
def Layer.shape (l : Layer) : Nat × Nat := (l.in_dim, l.out_dim)

/-- The topology of a net: the list of layer shapes. -/
def Net.shape (n : Net) : List (Nat × Nat) := n.layers.map Layer.shape

/-- Specification-side evaluator for one layer, following section 4.3 of the
specification: z_o is the bias plus the sum over inputs of weight times
activation, written with a Finset sum. -/
def specLayer (l : Layer) (a : List ℚ) : List ℚ :=
  (List.range l.out_dim).map (fun o =>
    l.b.getD o 0 + ∑ i ∈ Finset.range l.in_dim, l.w.getD (o * l.in_dim + i) 0 * a.getD i 0)

/-- Specification-side layer chain: max 0 applied elementwise on every layer
except the last, the last layer linear, the final activation returned as is. -/
def specForwardAux : List Layer → List ℚ → List ℚ
  | [], a => a
  | [l], a => specLayer l a
  | l :: l2 :: ls, a => specForwardAux (l2 :: ls) ((specLayer l a).map (fun z => max 0 z))

/-- Specification-side evaluate from section 4.3, applied to a net. -/
def specEvaluate (net : Net) (x : List ℚ) : List ℚ :=
  specForwardAux net.layers x

/-- A fixed randomness source whose raw draws are all zero, used for
concrete witnesses. -/
def zeroRng : Rng := ⟨fun _ => 0, fun _ => 0, 0, 0⟩

/-- A concrete valid net with one hidden layer of width h and all weights
and biases equal to v. -/
def constNet (h : Nat) (v : ℚ) : Net :=
  ⟨[⟨INPUT_DIM, h, List.replicate (h * INPUT_DIM) v, List.replicate h v⟩,
    ⟨h, OUTPUT_DIM, List.replicate (OUTPUT_DIM * h) v, List.replicate OUTPUT_DIM v⟩]⟩

/-- A concrete valid net with hidden width 8 and zero parameters. -/
def netA : Net := constNet 8 0

/-- A concrete valid net with hidden width 8 and all parameters 1. -/
def netB : Net := constNet 8 1

/-- A concrete valid net with hidden width 20 and all parameters 7, used to
observe which layers a structural mutation rewrites. -/
def netSeven : Net := constNet 20 7

/-- A concrete valid net of shape 16 to 20 to 5 with all parameters 3. -/
def netC : Net := constNet 20 3

/-- A concrete valid net of shape 16 to 20 to 5 with all parameters 5. -/
def netD : Net := constNet 20 5

/-- A concrete single-layer net (no hidden layer), as produced by
from_hidden_sizes applied to the empty list; its parameters are all 7. -/
def netSingle : Net :=
  ⟨[⟨INPUT_DIM, OUTPUT_DIM, List.replicate (OUTPUT_DIM * INPUT_DIM) 7, List.replicate OUTPUT_DIM 7⟩]⟩

/-- A concrete length-16 input vector. -/
def inputX : List ℚ := List.replicate INPUT_DIM 1

/-- Two layers agree on all dimension and storage-length data.  Weight
blending and point mutation produce layers similar to their input in this
sense, which transports the structural invariants. -/
def LayerSim (a b : Layer) : Prop :=
  b.in_dim = a.in_dim ∧ b.out_dim = a.out_dim ∧
  b.w.length = a.w.length ∧ b.b.length = a.b.length

theorem sampleF_mem (lo hi : ℚ) (r : Rng) (h : lo < hi) :
    lo ≤ (sampleF lo hi r).1 ∧ (sampleF lo hi r).1 < hi := by
  by_cases hx : lo ≤ r.floats r.fi ∧ r.floats r.fi < hi
  · simp [sampleF, hx]
  · simpa [sampleF, hx] using h

theorem sampleF_nonneg (r : Rng) : 0 ≤ (sampleF 0 1 r).1 :=
  (sampleF_mem 0 1 r one_pos).1

theorem sampleF_lt_one (r : Rng) : (sampleF 0 1 r).1 < 1 :=
  (sampleF_mem 0 1 r one_pos).2

theorem sampleN_lt (lo hi : Nat) (r : Rng) (h : lo < hi) : (sampleN lo hi r).1 < hi := by
  have := Nat.mod_lt (r.nats r.ni) (y := hi - lo) (by omega)
  simp only [sampleN]
  omega

theorem sampleNInc_mem (lo hi : Nat) (r : Rng) (h : lo ≤ hi) :
    lo ≤ (sampleNInc lo hi r).1 ∧ (sampleNInc lo hi r).1 ≤ hi := by
  have := Nat.mod_lt (r.nats r.ni) (y := hi - lo + 1) (by omega)
  simp only [sampleNInc]
  omega

theorem sampleList_length (lo hi : ℚ) : ∀ (n : Nat) (r : Rng),
    ((sampleList lo hi n r).1).length = n
  | 0, _ => rfl
  | n + 1, r => by simp [sampleList, sampleList_length lo hi n]

theorem sampleList_mem (lo hi : ℚ) (h : lo < hi) : ∀ (n : Nat) (r : Rng) (v : ℚ),
    v ∈ (sampleList lo hi n r).1 → lo ≤ v ∧ v < hi
  | 0, r, v, hv => by simp [sampleList] at hv
  | n + 1, r, v, hv => by
    simp only [sampleList, List.mem_cons] at hv
    rcases hv with h1 | h2
    · exact h1 ▸ sampleF_mem lo hi r h
    · exact sampleList_mem lo hi h n _ v h2

theorem mapIdxFrom_length (f : Nat → ℚ → ℚ) : ∀ (k : Nat) (l : List ℚ),
    (mapIdxFrom f k l).length = l.length
  | _, [] => rfl
  | k, v :: vs => by simp [mapIdxFrom, mapIdxFrom_length f (k + 1) vs]

theorem mapIdxFrom_getD (f : Nat → ℚ → ℚ) : ∀ (k i : Nat) (l : List ℚ),
    (mapIdxFrom f k l).getD i 0 = if i < l.length then f (k + i) (l.getD i 0) else 0
  | _, i, [] => by simp [mapIdxFrom]
  | k, 0, v :: vs => by simp [mapIdxFrom]
  | k, i + 1, v :: vs => by
    have ih := mapIdxFrom_getD f (k + 1) i vs
    simp only [mapIdxFrom, List.getD_cons_succ, List.length_cons]
    rw [ih]
    have harith : k + 1 + i = k + (i + 1) := by omega
    by_cases hlt : i < vs.length
    · simp [hlt, harith, Nat.succ_lt_succ hlt]
    · simp [hlt, fun h => hlt (Nat.lt_of_succ_lt_succ h)]

theorem map_range_getD (f : Nat → ℚ) (n i : Nat) (d : ℚ) :
    ((List.range n).map f).getD i d = if i < n then f i else d := by
  by_cases h : i < n
  · have hl : i < ((List.range n).map f).length := by simpa using h
    rw [List.getD_eq_getElem _ _ hl]
    simp [List.getElem_range, h]
  · rw [List.getD_eq_default _ _ (by simpa using Nat.le_of_not_lt h)]
    simp [h]

theorem list_ext_getD (l1 l2 : List ℚ) (hlen : l1.length = l2.length)
    (h : ∀ i, i < l1.length → l1.getD i 0 = l2.getD i 0) : l1 = l2 := by
  refine List.ext_getElem hlen (fun n h1 h2 => ?_)
  rw [← List.getD_eq_getElem l1 0 h1, ← List.getD_eq_getElem l2 0 h2]
  exact h n h1

theorem range_map_getD (a : List ℚ) :
    (List.range a.length).map (fun i => a.getD i 0) = a := by
  refine List.ext_getElem (by simp) (fun n h1 h2 => ?_)
  rw [List.getElem_map, List.getElem_range]
  exact List.getD_eq_getElem a 0 h2

theorem getD_set_self (l : List Layer) (i : Nat) (a : Layer) (h : i < l.length) :
    (l.set i a).getD i default = a := by
  simp [List.getD_eq_getElem?_getD, List.getElem?_set, h]

theorem getD_set_ne (l : List Layer) (i j : Nat) (a : Layer) (h : i ≠ j) :
    (l.set i a).getD j default = l.getD j default := by
  simp [List.getD_eq_getElem?_getD, List.getElem?_set, h]

theorem mutateList_length (rate mag : ℚ) : ∀ (l : List ℚ) (r : Rng),
    ((mutateList rate mag l r).1).length = l.length
  | [], _ => rfl
  | v :: vs, r => by simp [mutateList, mutateList_length rate mag vs]

theorem mutateList_zero_rate (mag : ℚ) : ∀ (l : List ℚ) (r : Rng),
    (mutateList 0 mag l r).1 = l
  | [], _ => rfl
  | v :: vs, r => by
    have h0 : ¬ (sampleF 0 1 r).1 < 0 := not_lt.2 (sampleF_nonneg r)
    simp [mutateList, h0, mutateList_zero_rate mag vs]

theorem mutateLayers_length (rate mag : ℚ) : ∀ (ls : List Layer) (r : Rng),
    ((mutateLayers rate mag ls r).1).length = ls.length
  | [], _ => rfl
  | l :: ls, r => by simp [mutateLayers, mutateLayers_length rate mag ls]

theorem mutateLayers_sim (rate mag : ℚ) : ∀ (ls : List Layer) (r : Rng) (i : Nat),
    i < ls.length →
    LayerSim (ls.getD i default) (((mutateLayers rate mag ls r).1).getD i default)
  | [], _, i, hi => by simp at hi
  | l :: ls, r, 0, _ => by
    simp [mutateLayers, LayerSim, mutateList_length]
  | l :: ls, r, i + 1, hi => by
    simp only [mutateLayers, List.getD_cons_succ]
    exact mutateLayers_sim rate mag ls _ i (by simpa using hi)

theorem mutateLayers_zero_rate (mag : ℚ) : ∀ (ls : List Layer) (r : Rng),
    (mutateLayers 0 mag ls r).1 = ls
  | [], _ => rfl
  | l :: ls, r => by
    simp [mutateLayers, mutateList_zero_rate, mutateLayers_zero_rate mag ls]

theorem blendLayer_sim (cl ol : Layer) : LayerSim cl (blendLayer cl ol) := by
  simp [LayerSim, blendLayer, mapIdxFrom_length]

theorem blendLayer_w_getD (cl ol : Layer) (p : Nat) :
    (blendLayer cl ol).w.getD p 0 =
      if p < cl.w.length ∧ p / cl.in_dim < min cl.out_dim ol.out_dim ∧
          p % cl.in_dim < min cl.in_dim ol.in_dim then
        (1/2) * (cl.w.getD p 0 + ol.w.getD ((p / cl.in_dim) * ol.in_dim + p % cl.in_dim) 0)
      else cl.w.getD p 0 := by
  simp only [blendLayer]
  rw [mapIdxFrom_getD]
  by_cases h1 : p < cl.w.length
  · simp only [h1, if_true, true_and, Nat.zero_add]
  · have h0 : cl.w.getD p 0 = 0 := List.getD_eq_default _ _ (Nat.le_of_not_lt h1)
    rw [if_neg h1, if_neg (fun hc => h1 hc.1), h0]

theorem blendLayer_b_getD (cl ol : Layer) (o : Nat) :
    (blendLayer cl ol).b.getD o 0 =
      if o < cl.b.length ∧ o < min cl.out_dim ol.out_dim then
        (1/2) * (cl.b.getD o 0 + ol.b.getD o 0)
      else cl.b.getD o 0 := by
  simp only [blendLayer]
  rw [mapIdxFrom_getD]
  by_cases h1 : o < cl.b.length
  · simp only [h1, if_true, true_and, Nat.zero_add]
  · have h0 : cl.b.getD o 0 = 0 := List.getD_eq_default _ _ (Nat.le_of_not_lt h1)
    rw [if_neg h1, if_neg (fun hc => h1 hc.1), h0]

theorem blendLayer_self (l : Layer) : blendLayer l l = l := by
  have hw : (blendLayer l l).w = l.w := by
    refine list_ext_getD _ _ (by simp [blendLayer, mapIdxFrom_length]) (fun i hi => ?_)
    have hi2 : i < l.w.length := by simpa [blendLayer, mapIdxFrom_length] using hi
    rw [blendLayer_w_getD]
    by_cases hb : i / l.in_dim < min l.out_dim l.out_dim ∧ i % l.in_dim < min l.in_dim l.in_dim
    · have hidx : (i / l.in_dim) * l.in_dim + i % l.in_dim = i := by
        have hdm := Nat.div_add_mod i l.in_dim
        have hcm : l.in_dim * (i / l.in_dim) = (i / l.in_dim) * l.in_dim := Nat.mul_comm _ _
        omega
      rw [if_pos ⟨hi2, hb⟩, hidx]
      ring
    · rw [if_neg (fun hc => hb hc.2)]
  have hb : (blendLayer l l).b = l.b := by
    refine list_ext_getD _ _ (by simp [blendLayer, mapIdxFrom_length]) (fun i hi => ?_)
    have hi2 : i < l.b.length := by simpa [blendLayer, mapIdxFrom_length] using hi
    rw [blendLayer_b_getD]
    by_cases hc : i < min l.out_dim l.out_dim
    · rw [if_pos ⟨hi2, hc⟩]
      ring
    · rw [if_neg (fun h => hc h.2)]
  cases l with
  | mk ind outd w b => simp_all [blendLayer]

theorem blendLayers_length : ∀ (cs os : List Layer), (blendLayers cs os).length = cs.length
  | [], _ => rfl
  | c :: cs, [] => rfl
  | c :: cs, o :: os => by simp [blendLayers, blendLayers_length cs os]

theorem blendLayers_getD : ∀ (cs os : List Layer) (i : Nat), i < cs.length →
    (blendLayers cs os).getD i default =
      if i < os.length then blendLayer (cs.getD i default) (os.getD i default)
      else cs.getD i default
  | [], _, i, hi => by simp at hi
  | c :: cs, [], i, hi => by simp [blendLayers]
  | c :: cs, o :: os, 0, _ => by simp [blendLayers]
  | c :: cs, o :: os, i + 1, hi => by
    simp only [blendLayers, List.getD_cons_succ, List.length_cons]
    rw [blendLayers_getD cs os i (by simpa using hi)]
    by_cases h2 : i < os.length
    · simp [h2, Nat.succ_lt_succ h2]
    · simp [h2, fun h => h2 (Nat.lt_of_succ_lt_succ h)]

theorem blendLayers_sim : ∀ (cs os : List Layer) (i : Nat), i < cs.length →
    LayerSim (cs.getD i default) ((blendLayers cs os).getD i default) := by
  intro cs os i hi
  rw [blendLayers_getD cs os i hi]
  by_cases h : i < os.length
  · simp only [h, if_true]
    exact blendLayer_sim _ _
  · simp [h, LayerSim]

theorem blendLayers_self : ∀ (ls : List Layer), blendLayers ls ls = ls
  | [] => rfl
  | l :: ls => by simp [blendLayers, blendLayer_self, blendLayers_self ls]

theorem blendLayers_shape : ∀ (cs os : List Layer),
    (blendLayers cs os).map Layer.shape = cs.map Layer.shape
  | [], _ => rfl
  | c :: cs, [] => rfl
  | c :: cs, o :: os => by
    simp only [blendLayers, List.map_cons, blendLayers_shape cs os]
    rfl

theorem buildNextRows_length (oldw : List ℚ) (old_in in_min new_in : Nat)
    (hmin : in_min ≤ new_in) : ∀ (os : List Nat) (r : Rng),
    ((buildNextRows oldw old_in in_min new_in os r).1).length = os.length * new_in
  | [], _ => by simp [buildNextRows]
  | o :: os, r => by
    have ih := buildNextRows_length oldw old_in in_min new_in hmin os
      (sampleList (-(1/10)) (1/10) (new_in - in_min) r).2
    simp only [buildNextRows, List.length_append, List.length_map,
      List.length_range, sampleList_length, List.length_cons, ih]
    rw [Nat.add_mul, Nat.one_mul]
    omega

theorem buildNextRows_getD (oldw : List ℚ) (old_in in_min new_in : Nat)
    (hmin : in_min ≤ new_in) : ∀ (os : List Nat) (r : Rng) (j i : Nat),
    j < os.length → i < in_min →
    ((buildNextRows oldw old_in in_min new_in os r).1).getD (j * new_in + i) 0 =
      oldw.getD ((os.getD j 0) * old_in + i) 0
  | [], _, j, i, hj, _ => by simp at hj
  | o :: os, r, 0, i, _, hi => by
    simp only [buildNextRows, List.getD_cons_zero, Nat.zero_mul, Nat.zero_add]
    rw [List.getD_append _ _ _ _ (by simp [sampleList_length]; omega)]
    rw [List.getD_append _ _ _ _ (by simp; omega)]
    rw [map_range_getD]
    simp [hi]
  | o :: os, r, j + 1, i, hj, hi => by
    simp only [buildNextRows, List.getD_cons_succ]
    have hlen : ((List.range in_min).map (fun i => oldw.getD (o * old_in + i) (0 : ℚ)) ++
        (sampleList (-(1/10)) (1/10) (new_in - in_min) r).1).length = new_in := by
      simp [sampleList_length]
      omega
    have hmul : (j + 1) * new_in = j * new_in + new_in := Nat.succ_mul j new_in
    rw [hmul]
    rw [List.getD_append_right _ _ _ _ (by rw [hlen]; omega)]
    rw [hlen]
    have harith : j * new_in + new_in + i - new_in = j * new_in + i := by omega
    rw [harith]
    exact buildNextRows_getD oldw old_in in_min new_in hmin os _ j i (by simpa using hj) hi

theorem insertAt_length : ∀ (n : Nat) (x : Layer) (ls : List Layer), n ≤ ls.length →
    (insertAt n x ls).length = ls.length + 1
  | 0, _, _, _ => by simp [insertAt]
  | n + 1, x, [], h => by simp at h
  | n + 1, x, y :: ls, h => by
    simp [insertAt, insertAt_length n x ls (by simpa using h)]

theorem insertAt_getD : ∀ (n : Nat) (x : Layer) (ls : List Layer) (j : Nat), n ≤ ls.length →
    (insertAt n x ls).getD j default =
      if j < n then ls.getD j default
      else if j = n then x else ls.getD (j - 1) default
  | 0, x, ls, 0, _ => by simp [insertAt]
  | 0, x, ls, j + 1, _ => by simp [insertAt]
  | n + 1, x, [], j, h => by simp at h
  | n + 1, x, y :: ls, 0, _ => by simp [insertAt]
  | n + 1, x, y :: ls, j + 1, h => by
    simp only [insertAt, List.getD_cons_succ]
    rw [insertAt_getD n x ls j (by simpa using h)]
    by_cases h1 : j < n
    · simp [h1, Nat.succ_lt_succ h1]
    · by_cases h2 : j = n
      · simp [h1, h2]
      · have hn1 : ¬ j + 1 < n + 1 := by omega
        have hn2 : ¬ j + 1 = n + 1 := by omega
        simp only [h1, if_false, h2, hn1, hn2]
        have h3 : j + 1 - 1 = (j - 1) + 1 := by omega
        rw [h3, List.getD_cons_succ]

theorem foldl_range_add (f : Nat → ℚ) (c : ℚ) : ∀ n : Nat,
    (List.range n).foldl (fun s i => s + f i) c = c + ∑ i ∈ Finset.range n, f i
  | 0 => by simp
  | n + 1 => by
    rw [List.range_succ, List.foldl_append, foldl_range_add f c n, Finset.sum_range_succ]
    simp only [List.foldl_cons, List.foldl_nil]
    ring

theorem applyLayer_last (l : Layer) (a : List ℚ) : applyLayer l true a = specLayer l a := by
  unfold applyLayer specLayer
  refine List.map_congr_left (fun o _ => ?_)
  simp only [if_true, foldl_range_add]

theorem applyLayer_hidden (l : Layer) (a : List ℚ) :
    applyLayer l false a = (specLayer l a).map (fun z => max 0 z) := by
  unfold applyLayer specLayer
  rw [List.map_map]
  refine List.map_congr_left (fun o _ => ?_)
  simp [Function.comp, foldl_range_add, max_comm]

theorem forwardAux_eq_spec : ∀ (ls : List Layer) (a : List ℚ),
    forwardAux ls a = specForwardAux ls a
  | [], _ => rfl
  | [l], a => applyLayer_last l a
  | l :: l2 :: ls, a => by
    rw [forwardAux, specForwardAux, applyLayer_hidden, forwardAux_eq_spec (l2 :: ls)]

theorem applyLayer_length (l : Layer) (b : Bool) (a : List ℚ) :
    (applyLayer l b a).length = l.out_dim := by
  simp [applyLayer]

theorem forwardAux_length : ∀ (ls : List Layer) (a : List ℚ), ls ≠ [] →
    (forwardAux ls a).length = (ls.getD (ls.length - 1) default).out_dim
  | [], _, h => absurd rfl h
  | [l], a, _ => by simp [forwardAux, applyLayer_length]
  | l :: l2 :: ls, a, _ => by
    rw [forwardAux, forwardAux_length (l2 :: ls) _ (by simp)]
    have h1 : (l :: l2 :: ls).length - 1 = ((l2 :: ls).length - 1) + 1 := by
      simp
    rw [h1, List.getD_cons_succ]

theorem from_hidden_sizes_aux_spec : ∀ (sizes : List Nat) (in0 : Nat) (r : Rng),
    ((from_hidden_sizes_aux sizes in0 r).1).map (fun l => l.in_dim) = in0 :: sizes ∧
    ((from_hidden_sizes_aux sizes in0 r).1).map (fun l => l.out_dim) = sizes ++ [OUTPUT_DIM] ∧
    ∀ l ∈ (from_hidden_sizes_aux sizes in0 r).1, Layer.wf l
  | [], in0, r => by
    refine ⟨rfl, rfl, ?_⟩
    intro l hl
    simp only [from_hidden_sizes_aux, Layer.new_random, List.mem_singleton] at hl
    subst hl
    simp [Layer.wf, sampleList_length]
  | h :: t, in0, r => by
    have ih := from_hidden_sizes_aux_spec t h
      (Layer.new_random in0 h (1/10) r).2
    refine ⟨?_, ?_, ?_⟩
    · simp only [from_hidden_sizes_aux, List.map_cons, ih.1]
      rfl
    · simp only [from_hidden_sizes_aux, List.map_cons, ih.2.1]
      rfl
    · intro l hl
      simp only [from_hidden_sizes_aux, List.mem_cons] at hl
      rcases hl with h1 | h2
      · subst h1
        simp [Layer.new_random, Layer.wf, sampleList_length]
      · exact ih.2.2 l h2

theorem getD_map_nat (f : Layer → Nat) : ∀ (ls : List Layer) (i : Nat) (d : Nat),
    i < ls.length → (ls.map f).getD i d = f (ls.getD i default)
  | [], i, d, hi => by simp at hi
  | l :: ls, 0, d, _ => by simp
  | l :: ls, i + 1, d, hi => by
    simp only [List.map_cons, List.getD_cons_succ]
    exact getD_map_nat f ls i d (by simpa using hi)

theorem valid_of_sim (n1 n2 : Net) (hlen : n2.layers.length = n1.layers.length)
    (hsim : ∀ i, i < n1.layers.length →
      LayerSim (n1.layers.getD i default) (n2.layers.getD i default))
    (hv : n1.valid) : n2.valid := by
  obtain ⟨h1, h2, h3, h4, h5, h6, h7⟩ := hv
  refine ⟨by omega, by omega, ?_, ?_, ?_, ?_, ?_⟩
  · obtain ⟨e1, _, _, _⟩ := hsim 0 (by omega)
    rw [e1]
    exact h3
  · intro i hi
    rw [hlen] at hi
    obtain ⟨e1, _, _, _⟩ := hsim (i + 1) (by omega)
    obtain ⟨_, e2, _, _⟩ := hsim i (by omega)
    rw [e1, e2]
    exact h4 i hi
  · rw [hlen]
    obtain ⟨_, e2, _, _⟩ := hsim (n1.layers.length - 1) (by omega)
    rw [e2]
    exact h5
  · intro i hi
    rw [hlen] at hi
    obtain ⟨_, e2, _, _⟩ := hsim i (by omega)
    rw [e2]
    exact h6 i hi
  · intro i hi
    rw [hlen] at hi
    obtain ⟨e1, e2, e3, e4⟩ := hsim i (by omega)
    obtain ⟨w1, w2⟩ := h7 i hi
    exact ⟨by rw [e3, e1, e2, w1], by rw [e4, e2, w2]⟩

theorem getD_set_set (ls : List Layer) (k : Nat) (a b : Layer) (j : Nat)
    (hk1 : k + 1 < ls.length) :
    ((ls.set k a).set (k + 1) b).getD j default =
      if j = k then a else if j = k + 1 then b else ls.getD j default := by
  by_cases e1 : j = k + 1
  · subst e1
    rw [getD_set_self _ _ _ (by simp [List.length_set]; omega)]
    rw [if_neg (by omega), if_pos rfl]
  · rw [getD_set_ne _ _ _ _ (fun h => e1 h.symm)]
    by_cases e2 : j = k
    · subst e2
      rw [getD_set_self _ _ _ (by omega), if_pos rfl]
    · rw [getD_set_ne _ _ _ _ (fun h => e2 h.symm), if_neg e2, if_neg e1]

theorem getD_insert_set (ls : List Layer) (pos : Nat) (a b : Layer) (j : Nat)
    (hpos : pos + 1 ≤ ls.length) :
    ((insertAt pos a ls).set (pos + 1) b).getD j default =
      if j < pos then ls.getD j default
      else if j = pos then a
      else if j = pos + 1 then b
      else ls.getD (j - 1) default := by
  by_cases e1 : j = pos + 1
  · subst e1
    rw [getD_set_self _ _ _ (by rw [insertAt_length pos a ls (by omega)]; omega)]
    rw [if_neg (by omega), if_neg (by omega), if_pos rfl]
  · rw [getD_set_ne _ _ _ _ (fun h => e1 h.symm)]
    rw [insertAt_getD pos a ls j (by omega)]
    by_cases h1 : j < pos
    · simp [h1]
    · by_cases h2 : j = pos
      · simp [h1, h2]
      · simp [h1, h2, e1]

theorem grow_valid (net : Net) (k : Nat) (l' nxt' : Layer)
    (hv : net.valid) (hk : k + 1 < net.layers.length)
    (hin : l'.in_dim = (net.layers.getD k default).in_dim)
    (hout : MIN_HIDDEN_UNITS ≤ l'.out_dim ∧ l'.out_dim ≤ MAX_HIDDEN_UNITS)
    (hnin : nxt'.in_dim = l'.out_dim)
    (hnout : nxt'.out_dim = (net.layers.getD (k + 1) default).out_dim)
    (hwf1 : l'.wf) (hwf2 : nxt'.wf) :
    Net.valid ⟨(net.layers.set k l').set (k + 1) nxt'⟩ := by
  obtain ⟨g1, g2, g3, g4, g5, g6, g7⟩ := hv
  have hget : ∀ j, (((net.layers.set k l').set (k + 1) nxt').getD j default) =
      if j = k then l' else if j = k + 1 then nxt' else net.layers.getD j default :=
    fun j => getD_set_set net.layers k l' nxt' j hk
  have hlen : ((net.layers.set k l').set (k + 1) nxt').length = net.layers.length := by
    simp [List.length_set]
  refine ⟨by simp [hlen]; omega, by simp [hlen]; omega, ?_, ?_, ?_, ?_, ?_⟩
  · show (((net.layers.set k l').set (k + 1) nxt').getD 0 default).in_dim = INPUT_DIM
    rw [hget 0]
    by_cases e : 0 = k
    · rw [if_pos e, hin, ← e]
      exact g3
    · rw [if_neg e, if_neg (by omega)]
      exact g3
  · intro i hi
    simp only [hlen] at hi
    show (((net.layers.set k l').set (k + 1) nxt').getD (i + 1) default).in_dim =
      (((net.layers.set k l').set (k + 1) nxt').getD i default).out_dim
    rw [hget (i + 1), hget i]
    by_cases e1 : i + 1 = k
    · rw [if_pos e1, if_neg (by omega), if_neg (by omega), hin, ← e1]
      exact g4 i hi
    · by_cases e2 : i = k
      · rw [if_neg e1, if_pos (by omega), if_pos e2, hnin]
      · by_cases e3 : i + 1 = k + 1
        · omega
        · by_cases e4 : i = k + 1
          · rw [if_neg e1, if_neg e3, if_neg (by omega), if_pos e4, hnout, ← e4]
            exact g4 i hi
          · rw [if_neg e1, if_neg e3, if_neg e2, if_neg e4]
            exact g4 i hi
  · show (((net.layers.set k l').set (k + 1) nxt').getD
      (((net.layers.set k l').set (k + 1) nxt').length - 1) default).out_dim = OUTPUT_DIM
    rw [hlen, hget (net.layers.length - 1)]
    by_cases e1 : net.layers.length - 1 = k
    · omega
    · by_cases e2 : net.layers.length - 1 = k + 1
      · rw [if_neg e1, if_pos e2, hnout, ← e2]
        exact g5
      · rw [if_neg e1, if_neg e2]
        exact g5
  · intro i hi
    simp only [hlen] at hi
    rw [hget i]
    by_cases e1 : i = k
    · rw [if_pos e1]
      exact hout
    · by_cases e2 : i = k + 1
      · rw [if_neg e1, if_pos e2, hnout, ← e2]
        exact g6 i hi
      · rw [if_neg e1, if_neg e2]
        exact g6 i hi
  · intro i hi
    simp only [hlen] at hi
    rw [hget i]
    by_cases e1 : i = k
    · rw [if_pos e1]
      exact hwf1
    · by_cases e2 : i = k + 1
      · rw [if_neg e1, if_pos e2]
        exact hwf2
      · rw [if_neg e1, if_neg e2]
        exact g7 i hi

theorem insert_grow_valid (net : Net) (pos : Nat) (nl nxt' : Layer)
    (hv : net.valid) (hpos : pos + 1 < net.layers.length)
    (hcap : net.layers.length ≤ MAX_HIDDEN_LAYERS)
    (hnlin : nl.in_dim = if pos = 0 then INPUT_DIM else (net.layers.getD (pos - 1) default).out_dim)
    (hnlout : MIN_HIDDEN_UNITS ≤ nl.out_dim ∧ nl.out_dim ≤ MAX_HIDDEN_UNITS)
    (hnin : nxt'.in_dim = nl.out_dim)
    (hnout : nxt'.out_dim = (net.layers.getD pos default).out_dim)
    (hwf1 : nl.wf) (hwf2 : nxt'.wf) :
    Net.valid ⟨(insertAt pos nl net.layers).set (pos + 1) nxt'⟩ := by
  obtain ⟨g1, g2, g3, g4, g5, g6, g7⟩ := hv
  have hget : ∀ j, (((insertAt pos nl net.layers).set (pos + 1) nxt').getD j default) =
      if j < pos then net.layers.getD j default
      else if j = pos then nl
      else if j = pos + 1 then nxt'
      else net.layers.getD (j - 1) default :=
    fun j => getD_insert_set net.layers pos nl nxt' j (by omega)
  have hlen : ((insertAt pos nl net.layers).set (pos + 1) nxt').length =
      net.layers.length + 1 := by
    rw [List.length_set, insertAt_length pos nl net.layers (by omega)]
  refine ⟨?_, ?_, ?_, ?_, ?_, ?_, ?_⟩
  · show 2 ≤ ((insertAt pos nl net.layers).set (pos + 1) nxt').length
    rw [hlen]
    omega
  · show ((insertAt pos nl net.layers).set (pos + 1) nxt').length ≤ MAX_HIDDEN_LAYERS + 1
    rw [hlen]
    omega
  · show (((insertAt pos nl net.layers).set (pos + 1) nxt').getD 0 default).in_dim = INPUT_DIM
    rw [hget 0]
    by_cases e1 : 0 < pos
    · rw [if_pos e1]
      exact g3
    · have e0 : pos = 0 := by omega
      rw [if_neg e1, if_pos (by omega), hnlin, if_pos e0]
  · intro i hi
    simp only [hlen] at hi
    show (((insertAt pos nl net.layers).set (pos + 1) nxt').getD (i + 1) default).in_dim =
      (((insertAt pos nl net.layers).set (pos + 1) nxt').getD i default).out_dim
    rw [hget (i + 1), hget i]
    by_cases e1 : i + 1 < pos
    · rw [if_pos e1, if_pos (by omega)]
      exact g4 i (by omega)
    · by_cases e2 : i + 1 = pos
      · rw [if_neg e1, if_pos e2, if_pos (by omega), hnlin, if_neg (by omega)]
        have e3 : pos - 1 = i := by omega
        rw [e3]
      · by_cases e3 : i = pos
        · rw [if_neg e1, if_neg e2, if_pos (by omega), if_neg (by omega), if_pos e3, hnin]
        · by_cases e4 : i + 1 = pos + 1
          · omega
          · by_cases e5 : i = pos + 1
            · rw [if_neg e1, if_neg e2, if_neg e4, if_neg (show ¬ i < pos by omega),
                if_neg e3, if_pos e5, hnout]
              have e6 : i + 1 - 1 = pos + 1 := by omega
              rw [e6]
              exact g4 pos (by omega)
            · rw [if_neg e1, if_neg e2, if_neg e4, if_neg (show ¬ i < pos by omega),
                if_neg e3, if_neg e5]
              have e6 : i + 1 - 1 = (i - 1) + 1 := by omega
              rw [e6]
              exact g4 (i - 1) (by omega)
  · show (((insertAt pos nl net.layers).set (pos + 1) nxt').getD
      (((insertAt pos nl net.layers).set (pos + 1) nxt').length - 1) default).out_dim = OUTPUT_DIM
    rw [hlen, hget (net.layers.length + 1 - 1)]
    rw [if_neg (by omega), if_neg (by omega), if_neg (by omega)]
    have e1 : net.layers.length + 1 - 1 - 1 = net.layers.length - 1 := by omega
    rw [e1]
    exact g5
  · intro i hi
    simp only [hlen] at hi
    rw [hget i]
    by_cases e1 : i < pos
    · rw [if_pos e1]
      exact g6 i (by omega)
    · by_cases e2 : i = pos
      · rw [if_neg e1, if_pos e2]
        exact hnlout
      · by_cases e3 : i = pos + 1
        · rw [if_neg e1, if_neg e2, if_pos e3, hnout]
          exact g6 pos (by omega)
        · rw [if_neg e1, if_neg e2, if_neg e3]
          exact g6 (i - 1) (by omega)
  · intro i hi
    simp only [hlen] at hi
    rw [hget i]
    by_cases e1 : i < pos
    · rw [if_pos e1]
      exact g7 i (by omega)
    · by_cases e2 : i = pos
      · rw [if_neg e1, if_pos e2]
        exact hwf1
      · by_cases e3 : i = pos + 1
        · rw [if_neg e1, if_neg e2, if_pos e3]
          exact hwf2
        · rw [if_neg e1, if_neg e2, if_neg e3]
          exact g7 (i - 1) (by omega)

theorem add_neurons_valid (net : Net) (k : Nat) (r : Rng) (hv : net.valid) :
    ((add_neurons net k r).1).valid := by
  by_cases h1 : net.layers.length < 2
  · simp only [add_neurons, if_pos h1]
    exact hv
  by_cases h2 : net.layers.length ≤ k + 1
  · simp only [add_neurons, if_neg h1, if_pos h2]
    exact hv
  by_cases h3 : min ((net.layers.getD k default).out_dim + (sampleNInc 1 4 r).1)
      MAX_HIDDEN_UNITS = (net.layers.getD k default).out_dim
  · simp only [add_neurons, if_neg h1, if_neg h2, if_pos h3]
    exact hv
  · have hhid := hv.2.2.2.2.2.1 k (by omega)
    have hwfn := hv.2.2.2.2.2.2 (k + 1) (by omega)
    have hadd := sampleNInc_mem 1 4 r (by norm_num)
    have hMN : MIN_HIDDEN_UNITS = 8 := rfl
    have hMX : MAX_HIDDEN_UNITS = 40 := rfl
    have hle : (net.layers.getD k default).out_dim ≤
        min ((net.layers.getD k default).out_dim + (sampleNInc 1 4 r).1) MAX_HIDDEN_UNITS :=
      Nat.le_min.mpr ⟨Nat.le_add_right _ _, by omega⟩
    simp only [add_neurons, if_neg h1, if_neg h2, if_neg h3]
    refine grow_valid net k _ _ hv (by omega) rfl ⟨?_, ?_⟩ rfl rfl ⟨?_, ?_⟩ ⟨?_, ?_⟩
    · exact Nat.le_min.mpr ⟨by omega, by omega⟩
    · exact Nat.min_le_right _ _
    · dsimp only
      rw [List.length_append, List.length_map, List.length_range, sampleList_length,
        ← Nat.add_mul, Nat.add_sub_cancel' hle]
    · dsimp only
      rw [List.length_append, List.length_map, List.length_range, sampleList_length,
        Nat.add_sub_cancel' hle]
    · dsimp only
      rw [buildNextRows_length _ _ _ _ (Nat.min_le_right _ _), List.length_range]
    · exact hwfn.2

theorem add_hidden_layer_valid (net : Net) (pos : Nat) (r : Rng) (hv : net.valid)
    (hpos : pos + 1 < net.layers.length) (hcap : net.layers.length ≤ MAX_HIDDEN_LAYERS) :
    ((add_hidden_layer net pos r).1).valid := by
  have hlen2 : 2 ≤ net.layers.length := hv.1
  have hne : net.layers.isEmpty = false := List.isEmpty_eq_false.mpr (by
    intro h
    rw [h] at hlen2
    simp at hlen2)
  have hwfpos := hv.2.2.2.2.2.2 pos (by omega)
  simp only [add_hidden_layer, hne, Bool.false_eq_true, if_false]
  rw [insertAt_length pos _ net.layers (by omega)]
  rw [if_pos (show pos + 1 < net.layers.length + 1 by omega)]
  rw [insertAt_getD pos _ net.layers (pos + 1) (by omega)]
  rw [if_neg (show ¬ pos + 1 < pos by omega), if_neg (show ¬ pos + 1 = pos by omega)]
  rw [show pos + 1 - 1 = pos from by omega]
  refine insert_grow_valid net pos _ _ hv hpos hcap rfl ?_ rfl rfl ⟨?_, ?_⟩ ⟨?_, ?_⟩
  · exact sampleNInc_mem MIN_HIDDEN_UNITS MAX_HIDDEN_UNITS r (by decide)
  · simp [Layer.new_random, sampleList_length]
  · simp [Layer.new_random, sampleList_length]
  · simp [sampleList_length]
  · exact hwfpos.2

theorem pick_template_valid (dad mom : Net) (r : Rng) (hd : dad.valid) (hm : mom.valid) :
    ((pick_template dad mom r).1).valid := by
  by_cases hc : (sampleF 0 1 r).1 < 1/2
  · simp only [pick_template, if_pos hc]
    exact hd
  · simp only [pick_template, if_neg hc]
    exact hm

theorem blend_valid (tpl other : Net) (hv : tpl.valid) :
    Net.valid ⟨blendLayers tpl.layers other.layers⟩ :=
  valid_of_sim tpl ⟨blendLayers tpl.layers other.layers⟩
    (blendLayers_length tpl.layers other.layers)
    (fun i hi => blendLayers_sim tpl.layers other.layers i hi) hv

theorem mutation_step_valid (rate mag : ℚ) (n : Net) (r : Rng) (hv : n.valid) :
    ((mutation_step rate mag n r).1).valid :=
  valid_of_sim n ⟨(mutateLayers rate mag n.layers r).1⟩
    (mutateLayers_length rate mag n.layers r)
    (fun i hi => mutateLayers_sim rate mag n.layers r i hi) hv

theorem width_growth_step_valid (pw : ℚ) (n : Net) (r : Rng) (hv : n.valid) :
    ((width_growth_step pw n r).1).valid := by
  by_cases h1 : (sampleF 0 1 r).1 < pw
  · by_cases h2 : 2 ≤ n.layers.length
    · simp only [width_growth_step, if_pos h1, if_pos h2]
      exact add_neurons_valid n _ _ hv
    · simp only [width_growth_step, if_pos h1, if_neg h2]
      exact hv
  · simp only [width_growth_step, if_neg h1]
    exact hv

theorem depth_growth_step_valid (pd : ℚ) (n : Net) (r : Rng) (hv : n.valid) :
    ((depth_growth_step pd n r).1).valid := by
  by_cases hc : (sampleF 0 1 r).1 < pd ∧ n.layers.length - 1 < MAX_HIDDEN_LAYERS
  · have hlen : 2 ≤ n.layers.length := hv.1
    have hM : MAX_HIDDEN_LAYERS = 4 := rfl
    simp only [depth_growth_step, if_pos hc, depth_growth_pos,
      if_neg (show ¬ n.layers.length ≤ 1 by omega)]
    have hpos := sampleN_lt 0 (n.layers.length - 1) (sampleF 0 1 r).2 (by omega)
    exact add_hidden_layer_valid n _ _ hv (by omega) (by omega)
  · simp only [depth_growth_step, if_neg hc]
    exact hv

theorem crossover_mutate_valid_core (dad mom : Net) (r : Rng) (rate mag pw pd : ℚ)
    (c : Net) (r' : Rng) (hd : dad.valid) (hm : mom.valid)
    (h : crossover_mutate dad mom r rate mag pw pd = some (c, r')) : c.valid := by
  by_cases hmag : -mag < mag
  · simp only [crossover_mutate, if_pos hmag] at h
    have h2 := Option.some.inj h
    have h3 : _ = c := congrArg Prod.fst h2
    rw [← h3]
    exact depth_growth_step_valid pd _ _
      (width_growth_step_valid pw _ _
        (mutation_step_valid rate mag _ _
          (blend_valid _ _ (pick_template_valid dad mom r hd hm))))
  · simp only [crossover_mutate, if_neg hmag] at h
    exact absurd h (by simp)

theorem mutation_step_fst_zero_rate (mag : ℚ) (n : Net) (r : Rng) :
    (mutation_step 0 mag n r).1 = n := by
  simp only [mutation_step, mutateLayers_zero_rate]

theorem width_growth_step_fst_zero (n : Net) (r : Rng) :
    (width_growth_step 0 n r).1 = n := by
  have h0 : ¬ (sampleF 0 1 r).1 < 0 := not_lt.2 (sampleF_nonneg r)
  simp [width_growth_step, h0]

theorem depth_growth_step_fst_zero (n : Net) (r : Rng) :
    (depth_growth_step 0 n r).1 = n := by
  have h0 : ¬ (sampleF 0 1 r).1 < 0 := not_lt.2 (sampleF_nonneg r)
  simp [depth_growth_step, h0]

theorem width_growth_step_fst_single (pw : ℚ) (n : Net) (r : Rng)
    (hlen : n.layers.length < 2) : (width_growth_step pw n r).1 = n := by
  by_cases h1 : (sampleF 0 1 r).1 < pw
  · simp [width_growth_step, h1, Nat.not_le.mpr hlen]
  · simp [width_growth_step, h1]

theorem crossover_zero_eq (dad mom : Net) (r : Rng) (mag : ℚ) (c : Net) (r' : Rng)
    (h : crossover_mutate dad mom r 0 mag 0 0 = some (c, r')) :
    c = ⟨blendLayers (pick_template dad mom r).1.layers
      (pick_template dad mom r).2.1.layers⟩ := by
  by_cases hmag : -mag < mag
  · simp only [crossover_mutate, if_pos hmag] at h
    have h2 := Option.some.inj h
    have h3 : _ = c := congrArg Prod.fst h2
    rw [← h3, mutation_step_fst_zero_rate, width_growth_step_fst_zero,
      depth_growth_step_fst_zero]
  · simp only [crossover_mutate, if_neg hmag] at h
    exact absurd h (by simp)

theorem pick_template_cases (dad mom : Net) (r : Rng) :
    ((pick_template dad mom r).1 = dad ∧ (pick_template dad mom r).2.1 = mom) ∨
    ((pick_template dad mom r).1 = mom ∧ (pick_template dad mom r).2.1 = dad) := by
  by_cases hc : (sampleF 0 1 r).1 < 1/2
  · left
    simp only [pick_template, if_pos hc]
    refine ⟨?_, ?_⟩ <;> trivial
  · right
    simp only [pick_template, if_neg hc]
    refine ⟨?_, ?_⟩ <;> trivial

theorem range_getD (n i : Nat) : (List.range n).getD i 0 = if i < n then i else 0 := by
  by_cases h : i < n
  · rw [List.getD_eq_getElem _ _ (by simpa using h), List.getElem_range]
    simp [h]
  · rw [List.getD_eq_default _ _ (by simpa using Nat.le_of_not_lt h)]
    simp [h]

theorem blendLayer_same_shape_w (cl ol : Layer)
    (hin : ol.in_dim = cl.in_dim) (hout : ol.out_dim = cl.out_dim)
    (hwc : cl.wf) (hwo : ol.wf) (hpos : 0 < cl.in_dim) (p : Nat) :
    (blendLayer cl ol).w.getD p 0 = (1/2) * (cl.w.getD p 0 + ol.w.getD p 0) := by
  rw [blendLayer_w_getD]
  by_cases hp : p < cl.w.length
  · have hplen : p < cl.out_dim * cl.in_dim := by rw [← hwc.1]; exact hp
    have hdiv : p / cl.in_dim < cl.out_dim := (Nat.div_lt_iff_lt_mul hpos).mpr hplen
    have hmod : p % cl.in_dim < cl.in_dim := Nat.mod_lt _ hpos
    rw [if_pos ⟨hp, by rw [hout, min_self]; exact hdiv, by rw [hin, min_self]; exact hmod⟩]
    rw [hin]
    have hidx : (p / cl.in_dim) * cl.in_dim + p % cl.in_dim = p := by
      have hdm := Nat.div_add_mod p cl.in_dim
      have hcm : cl.in_dim * (p / cl.in_dim) = (p / cl.in_dim) * cl.in_dim := Nat.mul_comm _ _
      omega
    rw [hidx]
  · rw [if_neg (fun hc => hp hc.1)]
    have h1 : cl.w.getD p 0 = 0 := List.getD_eq_default _ _ (Nat.le_of_not_lt hp)
    have h2 : ol.w.getD p 0 = 0 := by
      refine List.getD_eq_default _ _ ?_
      rw [hwo.1, hin, hout]
      rw [hwc.1] at hp
      omega
    rw [h1, h2]
    ring

theorem blendLayer_same_shape_b (cl ol : Layer)
    (hout : ol.out_dim = cl.out_dim) (hwc : cl.wf) (hwo : ol.wf) (o : Nat) :
    (blendLayer cl ol).b.getD o 0 = (1/2) * (cl.b.getD o 0 + ol.b.getD o 0) := by
  rw [blendLayer_b_getD]
  by_cases hp : o < cl.b.length
  · rw [if_pos ⟨hp, by rw [hout, min_self, ← hwc.2]; exact hp⟩]
  · rw [if_neg (fun hc => hp hc.1)]
    have h1 : cl.b.getD o 0 = 0 := List.getD_eq_default _ _ (Nat.le_of_not_lt hp)
    have h2 : ol.b.getD o 0 = 0 := by
      refine List.getD_eq_default _ _ ?_
      rw [hwo.2, hout]
      rw [hwc.2] at hp
      omega
    rw [h1, h2]
    ring

theorem from_hidden_sizes_facts (sizes : List Nat) (r : Rng) :
    ((Net.from_hidden_sizes sizes r).1).layers.length = sizes.length + 1 ∧
    (((Net.from_hidden_sizes sizes r).1).layers.getD 0 default).in_dim = INPUT_DIM ∧
    (((Net.from_hidden_sizes sizes r).1).layers.getD sizes.length default).out_dim =
      OUTPUT_DIM := by
  obtain ⟨hin, hout, _⟩ := from_hidden_sizes_aux_spec sizes INPUT_DIM r
  have hlen : ((from_hidden_sizes_aux sizes INPUT_DIM r).1).length = sizes.length + 1 := by
    have h1 := congrArg List.length hin
    simpa using h1
  refine ⟨hlen, ?_, ?_⟩
  · have h0 := getD_map_nat (fun l => l.in_dim) (from_hidden_sizes_aux sizes INPUT_DIM r).1
      0 0 (by omega)
    rw [hin] at h0
    exact h0.symm
  · have h0 := getD_map_nat (fun l => l.out_dim) (from_hidden_sizes_aux sizes INPUT_DIM r).1
      sizes.length 0 (by omega)
    rw [hout, List.getD_append_right _ _ _ _ (le_refl sizes.length)] at h0
    simpa using h0.symm

/-- C1: for every pair of parent genomes that each satisfy the structural
invariants (first input width 16, adjacent dimensions matching, last output
width 5, hidden-layer count in 1..4, hidden widths in 8..40), and for every
randomness stream and parameter setting, the genome returned by
crossover_mutate also satisfies all of those invariants. -/
theorem claim1_recombine_preserves_invariants (dad mom : Net) (r : Rng)
    (rate mag pw pd : ℚ) (c : Net) (r' : Rng)
    (hd : dad.valid) (hm : mom.valid)
    (h : crossover_mutate dad mom r rate mag pw pd = some (c, r')) : c.valid :=
  crossover_mutate_valid_core dad mom r rate mag pw pd c r' hd hm h

/-- Witness for C1: two concrete valid parents for which crossover_mutate
succeeds with a valid child. -/
theorem claim1_witness :
    Net.valid netA ∧ Net.valid netB ∧
    ∃ (c : Net) (r' : Rng),
      crossover_mutate netA netB zeroRng 0 1 0 0 = some (c, r') ∧ c.valid := by
  refine ⟨by decide, by decide, ?_⟩
  cases hopt : crossover_mutate netA netB zeroRng 0 1 0 0 with
  | none =>
    have hs : (crossover_mutate netA netB zeroRng 0 1 0 0).isSome = true := by decide
    rw [hopt] at hs
    simp at hs
  | some p =>
    obtain ⟨c0, r0⟩ := p
    exact ⟨c0, r0, rfl,
      claim1_recombine_preserves_invariants netA netB zeroRng 0 1 0 0 c0 r0
        (by decide) (by decide) hopt⟩

/-- C3 counterexample: at mutation_mag = 0 the claim fails on concrete valid
parents: the construction Uniform::new(-0.0, 0.0) in the mutation step has
an empty range and panics in the rand crate, so crossover_mutate does not
complete (the embedding returns none). -/
theorem claim3_counterexample :
    Net.valid netA ∧ Net.valid netB ∧
    crossover_mutate netA netB zeroRng 0 0 0 0 = none := by
  refine ⟨by decide, by decide, rfl⟩

/-- C3 (amended): for structurally valid parents and every randomness stream
and parameter setting with mutation_mag strictly positive, crossover_mutate
completes successfully; the boundary case mutation_mag = 0 must be excluded
because Uniform::new(-mutation_mag, mutation_mag) then panics. -/
theorem claim3_recombine_total_for_positive_mag (dad mom : Net) (r : Rng)
    (rate mag pw pd : ℚ) (_hd : dad.valid) (_hm : mom.valid) (hmag : 0 < mag) :
    (crossover_mutate dad mom r rate mag pw pd).isSome = true := by
  have h : -mag < mag := by linarith
  simp only [crossover_mutate, if_pos h, Option.isSome_some]

/-- Witness for C3: concrete valid parents and mutation_mag = 1. -/
theorem claim3_witness :
    Net.valid netA ∧ Net.valid netB ∧ (0 : ℚ) < 1 ∧
    (crossover_mutate netA netB zeroRng 0 1 0 0).isSome = true :=
  ⟨by decide, by decide, by norm_num,
    claim3_recombine_total_for_positive_mag netA netB zeroRng 0 1 0 0
      (by decide) (by decide) (by norm_num)⟩

/-- C4 counterexample: from_hidden_sizes applied to the empty widths list
(an explicitly allowed argument) produces a single-layer genome, whose
hidden-layer count is 0, outside the range 1..4 required by the claim. -/
theorem claim4_counterexample :
    (Net.from_hidden_sizes [] zeroRng).1.layers.length = 1 ∧
    ¬ (1 ≤ (Net.from_hidden_sizes [] zeroRng).1.layers.length - 1) := by
  exact ⟨rfl, by decide⟩

/-- C4 (amended): every genome from new_random has first input width 16,
last output width 5 and hidden-layer count 1 or 2 (hence within 1..4); every
genome from from_hidden_sizes has first input width 16, last output width 5
and hidden-layer count exactly the length of the widths list, which lies in
1..4 only when the list has 1 to 4 entries - the empty list yields hidden
count 0. -/
theorem claim4_factory_dims :
    (∀ r : Rng,
      2 ≤ ((Net.new_random r).1).layers.length ∧
      ((Net.new_random r).1).layers.length ≤ 3 ∧
      (((Net.new_random r).1).layers.getD 0 default).in_dim = INPUT_DIM ∧
      (((Net.new_random r).1).layers.getD
        (((Net.new_random r).1).layers.length - 1) default).out_dim = OUTPUT_DIM) ∧
    (∀ (sizes : List Nat) (r : Rng),
      ((Net.from_hidden_sizes sizes r).1).layers.length - 1 = sizes.length ∧
      (((Net.from_hidden_sizes sizes r).1).layers.getD 0 default).in_dim = INPUT_DIM ∧
      (((Net.from_hidden_sizes sizes r).1).layers.getD sizes.length default).out_dim
        = OUTPUT_DIM) := by
  constructor
  · intro r
    by_cases hc : (sampleF 0 1 (rand_hidden_units r).2).1 < 1/4
    · simp only [Net.new_random, if_pos hc]
      obtain ⟨hl, hi, ho⟩ := from_hidden_sizes_facts
        [(rand_hidden_units r).1,
         (rand_hidden_units (sampleF 0 1 (rand_hidden_units r).2).2).1]
        (rand_hidden_units (sampleF 0 1 (rand_hidden_units r).2).2).2
      refine ⟨by rw [hl]; simp, by rw [hl]; simp, hi, ?_⟩
      rw [hl, Nat.add_sub_cancel]
      exact ho
    · simp only [Net.new_random, if_neg hc]
      obtain ⟨hl, hi, ho⟩ := from_hidden_sizes_facts
        [(rand_hidden_units r).1] (sampleF 0 1 (rand_hidden_units r).2).2
      refine ⟨by rw [hl]; simp, by rw [hl]; simp, hi, ?_⟩
      rw [hl, Nat.add_sub_cancel]
      exact ho
  · intro sizes r
    obtain ⟨hl, hi, ho⟩ := from_hidden_sizes_facts sizes r
    exact ⟨by rw [hl]; omega, hi, ho⟩

/-- C9: from_hidden_sizes performs no validation: for every widths list it
returns a genome with exactly one layer more than the list, whose layers'
output widths are the given widths followed by OUTPUT_DIM; in particular
widths outside 8..40 and lists longer than 4 are accepted and produce
genomes violating the structural bounds, as the concrete list of five
width-1 entries shows. -/
theorem claim9_from_hidden_widths_no_validation :
    (∀ (sizes : List Nat) (r : Rng),
      ((Net.from_hidden_sizes sizes r).1).layers.length = sizes.length + 1 ∧
      ((Net.from_hidden_sizes sizes r).1).layers.map (fun l => l.out_dim) =
        sizes ++ [OUTPUT_DIM]) ∧
    ¬ Net.valid (Net.from_hidden_sizes [1, 1, 1, 1, 1] zeroRng).1 := by
  constructor
  · intro sizes r
    obtain ⟨_, hout, _⟩ := from_hidden_sizes_aux_spec sizes INPUT_DIM r
    exact ⟨(from_hidden_sizes_facts sizes r).1, hout⟩
  · decide

theorem add_hidden_layer_pos0_len2 (n : Net) (A B : Layer) (hn : n.layers = [A, B])
    (r : Rng) :
    (add_hidden_layer n 0 r).1.layers.length = 3 ∧
    (add_hidden_layer n 0 r).1.layers.getD 2 default = B := by
  simp only [add_hidden_layer, hn, List.isEmpty_cons, Bool.false_eq_true, if_false,
    insertAt]
  constructor <;> simp [List.set]

theorem depth_growth_seven (Y : Rng) :
    (((depth_growth_step 1 netSeven Y).1).layers.getD
      (((depth_growth_step 1 netSeven Y).1).layers.length - 1) default).w.getD 0 0 = 7 := by
  have hcond : (sampleF 0 1 Y).1 < 1 ∧
      netSeven.layers.length - 1 < MAX_HIDDEN_LAYERS := ⟨sampleF_lt_one Y, by decide⟩
  simp only [depth_growth_step, if_pos hcond]
  have hp : ∀ Z : Rng, (depth_growth_pos netSeven.layers.length Z).1 = 0 := by
    intro Z
    simp [depth_growth_pos, netSeven, constNet, sampleN, Nat.mod_one]
  rw [hp]
  obtain ⟨hlen3, hget2⟩ := add_hidden_layer_pos0_len2 netSeven
    ⟨INPUT_DIM, 20, List.replicate (20 * INPUT_DIM) 7, List.replicate 20 7⟩
    ⟨20, OUTPUT_DIM, List.replicate (OUTPUT_DIM * 20) 7, List.replicate OUTPUT_DIM 7⟩
    rfl (depth_growth_pos netSeven.layers.length (sampleF 0 1 Y).2).2
  rw [hlen3, show (3 : Nat) - 1 = 2 from rfl, hget2]
  decide

/-- C2 counterexample: for two identical valid parents with one hidden layer
(H = 1) and all parameters equal to 7, with p_add_depth = 1 so depth growth
always fires, there is no randomness outcome whatsoever on which the output
layer is rewired: its first weight always stays 7, whereas an insertion
immediately before the output layer (position H) would freshly randomize
the whole output weight block inside the interval from -0.1 to 0.1.  This
refutes the claim that position H is attainable: the source draws the
position from Uniform::new(0, len - 1), whose values stop at H - 1. -/
theorem claim2_counterexample :
    ¬ ∃ (r : Rng) (c : Net) (r' : Rng),
      crossover_mutate netSeven netSeven r 0 1 0 1 = some (c, r') ∧
      (c.layers.getD (c.layers.length - 1) default).w.getD 0 0 ≠ 7 := by
  rintro ⟨r, c, r', h, hne⟩
  apply hne
  have hmag : -(1 : ℚ) < 1 := by norm_num
  simp only [crossover_mutate, if_pos hmag] at h
  have hpt : pick_template netSeven netSeven r =
      (netSeven, netSeven, (sampleF 0 1 r).2) := by
    simp only [pick_template]
    split <;> rfl
  rw [hpt] at h
  dsimp only at h
  rw [blendLayers_self] at h
  rw [show (⟨netSeven.layers⟩ : Net) = netSeven from rfl] at h
  rw [mutation_step_fst_zero_rate] at h
  rw [width_growth_step_fst_zero] at h
  have h2 := Option.some.inj h
  have h3 : _ = c := congrArg Prod.fst h2
  rw [← h3]
  exact depth_growth_seven _

/-- C2 (amended): whenever the depth-growth step fires on a child with at
least one hidden layer (layer count at least 2), the insertion position is
drawn from Uniform::new(0, layer count - 1), so it always lies strictly
below the hidden-layer count H - before one of the existing hidden layers,
never immediately before the output layer - and every position in 0..H-1 is
attainable by some randomness stream. -/
theorem claim2_depth_position_range (len : Nat) (r : Rng) (h2 : 2 ≤ len) :
    (depth_growth_pos len r).1 < len - 1 ∧
    (∀ t, t < len - 1 → ∃ r2 : Rng, (depth_growth_pos len r2).1 = t) := by
  constructor
  · simp only [depth_growth_pos, if_neg (show ¬ len ≤ 1 by omega)]
    exact sampleN_lt 0 (len - 1) r (by omega)
  · intro t ht
    refine ⟨⟨fun _ => 0, fun _ => t, 0, 0⟩, ?_⟩
    simp only [depth_growth_pos, if_neg (show ¬ len ≤ 1 by omega), sampleN]
    simpa using Nat.mod_eq_of_lt ht

/-- Witness for C2's amended statement at layer count 3 (H = 2): the drawn
position is below 2, and position 1 is attainable. -/
theorem claim2_witness :
    (depth_growth_pos 3 zeroRng).1 < 2 ∧
    ∃ r2 : Rng, (depth_growth_pos 3 r2).1 = 1 :=
  ⟨(claim2_depth_position_range 3 zeroRng (by norm_num)).1,
   (claim2_depth_position_range 3 zeroRng (by norm_num)).2 1 (by norm_num)⟩

/-- C8: for every structurally valid genome and every length-16 input, the
forward evaluator returns a length-5 vector and coincides with the
specification-side evaluator, which applies layer by layer the affine map
z = bias + sum of weight times activation with max(0, z) elementwise on
every layer except the last and the last layer passed through unmodified.
Determinism and purity hold by construction: the embedding is a function of
the genome and the input alone. -/
theorem claim8_forward_refines_spec (net : Net) (x : List ℚ)
    (hv : net.valid) (_hx : x.length = INPUT_DIM) :
    (net.forward x).length = OUTPUT_DIM ∧ net.forward x = specEvaluate net x := by
  have hne : net.layers ≠ [] := by
    have h1 := hv.1
    intro hnil
    rw [hnil] at h1
    simp at h1
  have hlen : (forwardAux net.layers x).length = OUTPUT_DIM := by
    rw [forwardAux_length net.layers x hne]
    exact hv.2.2.2.2.1
  constructor
  · simp [Net.forward]
  · show (List.range OUTPUT_DIM).map (fun i => (forwardAux net.layers x).getD i 0) =
      specEvaluate net x
    rw [← hlen, range_map_getD, forwardAux_eq_spec]
    rfl

/-- Witness for C8 at a concrete valid genome and input. -/
theorem claim8_witness :
    Net.valid netSeven ∧ inputX.length = INPUT_DIM ∧
    ((netSeven.forward inputX).length = OUTPUT_DIM ∧
      netSeven.forward inputX = specEvaluate netSeven inputX) :=
  ⟨by decide, by decide, claim8_forward_refines_spec netSeven inputX (by decide) (by decide)⟩

theorem blendLayer_block_mean (cl ol : Layer) (o i : Nat) (hwc : cl.wf)
    (hpos : 0 < cl.in_dim)
    (ho : o < min cl.out_dim ol.out_dim) (hi : i < min cl.in_dim ol.in_dim) :
    (blendLayer cl ol).w.getD (o * cl.in_dim + i) 0 =
      (1/2) * (cl.w.getD (o * cl.in_dim + i) 0 + ol.w.getD (o * ol.in_dim + i) 0) := by
  have hi2 : i < cl.in_dim := lt_of_lt_of_le hi (min_le_left _ _)
  have ho2 : o < cl.out_dim := lt_of_lt_of_le ho (min_le_left _ _)
  have hdiv : (o * cl.in_dim + i) / cl.in_dim = o := by
    rw [Nat.add_comm (o * cl.in_dim) i, Nat.mul_comm o cl.in_dim,
      Nat.add_mul_div_left _ _ hpos, Nat.div_eq_of_lt hi2, Nat.zero_add]
  have hmod : (o * cl.in_dim + i) % cl.in_dim = i := by
    rw [Nat.add_comm (o * cl.in_dim) i, Nat.mul_comm o cl.in_dim,
      Nat.add_mul_mod_self_left, Nat.mod_eq_of_lt hi2]
  have hplen : o * cl.in_dim + i < cl.w.length := by
    rw [hwc.1]
    calc o * cl.in_dim + i < o * cl.in_dim + cl.in_dim := by omega
      _ = (o + 1) * cl.in_dim := by ring
      _ ≤ cl.out_dim * cl.in_dim := Nat.mul_le_mul_right _ (by omega)
  rw [blendLayer_w_getD,
    if_pos ⟨hplen, by rw [hdiv]; exact ho, by rw [hmod]; exact hi⟩, hdiv, hmod]

theorem blendLayer_w_outside (cl ol : Layer) (p : Nat)
    (hout : ¬ (p / cl.in_dim < min cl.out_dim ol.out_dim ∧
      p % cl.in_dim < min cl.in_dim ol.in_dim)) :
    (blendLayer cl ol).w.getD p 0 = cl.w.getD p 0 := by
  rw [blendLayer_w_getD, if_neg (fun hc => hout hc.2)]

theorem blendLayer_b_outside (cl ol : Layer) (o : Nat)
    (h : ¬ o < min cl.out_dim ol.out_dim) :
    (blendLayer cl ol).b.getD o 0 = cl.b.getD o 0 := by
  rw [blendLayer_b_getD, if_neg (fun hc => h hc.2)]

/-- C5: with identical 16-20-5 parents and zero mutation and structural
settings, the child's weights and biases equal the elementwise arithmetic
mean of the parents' everywhere; and in general weight blending replaces a
position inside the overlapping block (output row below both out_dims,
input column below both in_dims) by the mean of the two parents' values at
that position. -/
theorem claim5_exact_blending (dad mom : Net) (r : Rng) (mag : ℚ) (c : Net) (r' : Rng)
    (hd : dad.valid) (hm : mom.valid)
    (hdl : dad.layers.length = 2) (hml : mom.layers.length = 2)
    (hd0 : (dad.layers.getD 0 default).in_dim = 16 ∧
      (dad.layers.getD 0 default).out_dim = 20)
    (hd1 : (dad.layers.getD 1 default).in_dim = 20 ∧
      (dad.layers.getD 1 default).out_dim = 5)
    (hm0 : (mom.layers.getD 0 default).in_dim = 16 ∧
      (mom.layers.getD 0 default).out_dim = 20)
    (hm1 : (mom.layers.getD 1 default).in_dim = 20 ∧
      (mom.layers.getD 1 default).out_dim = 5)
    (h : crossover_mutate dad mom r 0 mag 0 0 = some (c, r')) :
    (∀ li, li < 2 → ∀ p,
      (c.layers.getD li default).w.getD p 0 =
        (1/2) * ((dad.layers.getD li default).w.getD p 0 +
                 (mom.layers.getD li default).w.getD p 0)) ∧
    (∀ li, li < 2 → ∀ o,
      (c.layers.getD li default).b.getD o 0 =
        (1/2) * ((dad.layers.getD li default).b.getD o 0 +
                 (mom.layers.getD li default).b.getD o 0)) ∧
    (∀ (cl ol : Layer) (o i : Nat), cl.wf → 0 < cl.in_dim →
      o < min cl.out_dim ol.out_dim → i < min cl.in_dim ol.in_dim →
      (blendLayer cl ol).w.getD (o * cl.in_dim + i) 0 =
        (1/2) * (cl.w.getD (o * cl.in_dim + i) 0 + ol.w.getD (o * ol.in_dim + i) 0)) := by
  have hc := crossover_zero_eq dad mom r mag c r' h
  have hdw0 := hd.2.2.2.2.2.2 0 (by omega)
  have hdw1 := hd.2.2.2.2.2.2 1 (by omega)
  have hmw0 := hm.2.2.2.2.2.2 0 (by omega)
  have hmw1 := hm.2.2.2.2.2.2 1 (by omega)
  rcases pick_template_cases dad mom r with ⟨e1, e2⟩ | ⟨e1, e2⟩
  · have hcl : ∀ li, li < 2 → c.layers.getD li default =
        blendLayer (dad.layers.getD li default) (mom.layers.getD li default) := by
      intro li hli
      rw [hc]
      show (blendLayers (pick_template dad mom r).1.layers
        (pick_template dad mom r).2.1.layers).getD li default = _
      rw [e1, e2, blendLayers_getD _ _ li (by omega), if_pos (by omega)]
    refine ⟨?_, ?_, fun cl ol o i hwc hpos ho hi => blendLayer_block_mean cl ol o i hwc hpos ho hi⟩
    · intro li hli p
      rw [hcl li hli]
      interval_cases li
      · exact blendLayer_same_shape_w _ _ (by omega) (by omega) hdw0 hmw0 (by omega) p
      · exact blendLayer_same_shape_w _ _ (by omega) (by omega) hdw1 hmw1 (by omega) p
    · intro li hli o
      rw [hcl li hli]
      interval_cases li
      · exact blendLayer_same_shape_b _ _ (by omega) hdw0 hmw0 o
      · exact blendLayer_same_shape_b _ _ (by omega) hdw1 hmw1 o
  · have hcl : ∀ li, li < 2 → c.layers.getD li default =
        blendLayer (mom.layers.getD li default) (dad.layers.getD li default) := by
      intro li hli
      rw [hc]
      show (blendLayers (pick_template dad mom r).1.layers
        (pick_template dad mom r).2.1.layers).getD li default = _
      rw [e1, e2, blendLayers_getD _ _ li (by omega), if_pos (by omega)]
    refine ⟨?_, ?_, fun cl ol o i hwc hpos ho hi => blendLayer_block_mean cl ol o i hwc hpos ho hi⟩
    · intro li hli p
      rw [hcl li hli]
      have hmean : ∀ a b : ℚ, (1/2) * (a + b) = (1/2) * (b + a) := by
        intro a b
        ring
      interval_cases li
      · rw [blendLayer_same_shape_w _ _ (by omega) (by omega) hmw0 hdw0 (by omega) p]
        exact hmean _ _
      · rw [blendLayer_same_shape_w _ _ (by omega) (by omega) hmw1 hdw1 (by omega) p]
        exact hmean _ _
    · intro li hli o
      rw [hcl li hli]
      have hmean : ∀ a b : ℚ, (1/2) * (a + b) = (1/2) * (b + a) := by
        intro a b
        ring
      interval_cases li
      · rw [blendLayer_same_shape_b _ _ (by omega) hmw0 hdw0 o]
        exact hmean _ _
      · rw [blendLayer_same_shape_b _ _ (by omega) hmw1 hdw1 o]
        exact hmean _ _

/-- Witness for C5 at concrete identical-topology parents with constant
parameters 3 and 5; the child's first weight is the mean. -/
theorem claim5_witness :
    Net.valid netC ∧ Net.valid netD ∧
    ∃ (c : Net) (r' : Rng),
      crossover_mutate netC netD zeroRng 0 1 0 0 = some (c, r') ∧
      (c.layers.getD 0 default).w.getD 0 0 =
        (1/2) * ((netC.layers.getD 0 default).w.getD 0 0 +
                 (netD.layers.getD 0 default).w.getD 0 0) := by
  refine ⟨by decide, by decide, ?_⟩
  cases hopt : crossover_mutate netC netD zeroRng 0 1 0 0 with
  | none =>
    have hs : (crossover_mutate netC netD zeroRng 0 1 0 0).isSome = true := by decide
    rw [hopt] at hs
    simp at hs
  | some p =>
    obtain ⟨c0, r0⟩ := p
    exact ⟨c0, r0, rfl,
      (claim5_exact_blending netC netD zeroRng 1 c0 r0 (by decide) (by decide)
        (by decide) (by decide) (by decide) (by decide) (by decide) (by decide)
        hopt).1 0 (by norm_num) 0⟩

/-- C7: with zero mutation rate and zero structural probabilities, the child
of crossover_mutate has exactly the template parent's topology, and every
weight or bias position outside the overlapping blending block with the
other parent (a layer index beyond the other parent's layer count, or a
flat weight position whose row or column is outside both parents' common
dimensions) keeps the template's original value. -/
theorem claim7_zero_settings_frame (dad mom : Net) (r : Rng) (mag : ℚ)
    (c : Net) (r' : Rng) (_hd : dad.valid) (_hm : mom.valid)
    (h : crossover_mutate dad mom r 0 mag 0 0 = some (c, r')) :
    c.shape = (pick_template dad mom r).1.shape ∧
    (∀ li p,
      ((pick_template dad mom r).2.1.layers.length ≤ li ∨
        ¬ (p / ((pick_template dad mom r).1.layers.getD li default).in_dim <
            min ((pick_template dad mom r).1.layers.getD li default).out_dim
              ((pick_template dad mom r).2.1.layers.getD li default).out_dim ∧
          p % ((pick_template dad mom r).1.layers.getD li default).in_dim <
            min ((pick_template dad mom r).1.layers.getD li default).in_dim
              ((pick_template dad mom r).2.1.layers.getD li default).in_dim)) →
      (c.layers.getD li default).w.getD p 0 =
        (((pick_template dad mom r).1.layers.getD li default)).w.getD p 0) ∧
    (∀ li o,
      ((pick_template dad mom r).2.1.layers.length ≤ li ∨
        ¬ o < min ((pick_template dad mom r).1.layers.getD li default).out_dim
            ((pick_template dad mom r).2.1.layers.getD li default).out_dim) →
      (c.layers.getD li default).b.getD o 0 =
        (((pick_template dad mom r).1.layers.getD li default)).b.getD o 0) := by
  have hc := crossover_zero_eq dad mom r mag c r' h
  refine ⟨?_, ?_, ?_⟩
  · rw [hc]
    show (blendLayers (pick_template dad mom r).1.layers
      (pick_template dad mom r).2.1.layers).map Layer.shape = _
    exact blendLayers_shape _ _
  · intro li p hcond
    rw [hc]
    show ((blendLayers (pick_template dad mom r).1.layers
      (pick_template dad mom r).2.1.layers).getD li default).w.getD p 0 = _
    by_cases hli : li < (pick_template dad mom r).1.layers.length
    · rw [blendLayers_getD _ _ li hli]
      by_cases hlo : li < (pick_template dad mom r).2.1.layers.length
      · rw [if_pos hlo]
        rcases hcond with hge | hout
        · omega
        · exact blendLayer_w_outside _ _ p hout
      · rw [if_neg hlo]
    · have hL : (blendLayers (pick_template dad mom r).1.layers
          (pick_template dad mom r).2.1.layers).getD li default = default :=
        List.getD_eq_default _ _ (by rw [blendLayers_length]; omega)
      have hR : (pick_template dad mom r).1.layers.getD li default = default :=
        List.getD_eq_default _ _ (by omega)
      rw [hL, hR]
  · intro li o hcond
    rw [hc]
    show ((blendLayers (pick_template dad mom r).1.layers
      (pick_template dad mom r).2.1.layers).getD li default).b.getD o 0 = _
    by_cases hli : li < (pick_template dad mom r).1.layers.length
    · rw [blendLayers_getD _ _ li hli]
      by_cases hlo : li < (pick_template dad mom r).2.1.layers.length
      · rw [if_pos hlo]
        rcases hcond with hge | hout
        · omega
        · exact blendLayer_b_outside _ _ o hout
      · rw [if_neg hlo]
    · have hL : (blendLayers (pick_template dad mom r).1.layers
          (pick_template dad mom r).2.1.layers).getD li default = default :=
        List.getD_eq_default _ _ (by rw [blendLayers_length]; omega)
      have hR : (pick_template dad mom r).1.layers.getD li default = default :=
        List.getD_eq_default _ _ (by omega)
      rw [hL, hR]

/-- Witness for C7 at concrete valid parents of different hidden widths:
the child's topology equals the template's. -/
theorem claim7_witness :
    Net.valid netA ∧ Net.valid netSeven ∧
    ∃ (c : Net) (r' : Rng),
      crossover_mutate netA netSeven zeroRng 0 1 0 0 = some (c, r') ∧
      c.shape = (pick_template netA netSeven zeroRng).1.shape := by
  refine ⟨by decide, by decide, ?_⟩
  cases hopt : crossover_mutate netA netSeven zeroRng 0 1 0 0 with
  | none =>
    have hs : (crossover_mutate netA netSeven zeroRng 0 1 0 0).isSome = true := by decide
    rw [hopt] at hs
    simp at hs
  | some p =>
    obtain ⟨c0, r0⟩ := p
    exact ⟨c0, r0, rfl,
      (claim7_zero_settings_frame netA netSeven zeroRng 1 c0 r0 (by decide) (by decide)
        hopt).1⟩

/-- C6: when width growth is applied to hidden layer k of a valid net (k is
a hidden index, so k + 1 is still a layer), the layer count is unchanged;
if layer k was already at MAX_HIDDEN_UNITS the net is returned unchanged;
otherwise its out_dim strictly grows; the new out_dim never exceeds
MAX_HIDDEN_UNITS; layer k+1's in_dim equals layer k's new out_dim; every
pre-existing weight of layer k+1 is preserved at its existing row and
column; and growing the output layer itself is a no-op. -/
theorem claim6_width_growth (net : Net) (k : Nat) (r : Rng)
    (hv : net.valid) (hk : k + 1 < net.layers.length) :
    ((add_neurons net k r).1.layers.length = net.layers.length) ∧
    ((net.layers.getD k default).out_dim = MAX_HIDDEN_UNITS →
      (add_neurons net k r).1 = net) ∧
    ((net.layers.getD k default).out_dim < MAX_HIDDEN_UNITS →
      (net.layers.getD k default).out_dim <
        ((add_neurons net k r).1.layers.getD k default).out_dim) ∧
    (((add_neurons net k r).1.layers.getD k default).out_dim ≤ MAX_HIDDEN_UNITS) ∧
    (((add_neurons net k r).1.layers.getD (k + 1) default).in_dim =
      ((add_neurons net k r).1.layers.getD k default).out_dim) ∧
    (∀ o i, o < (net.layers.getD (k + 1) default).out_dim →
      i < (net.layers.getD (k + 1) default).in_dim →
      ((add_neurons net k r).1.layers.getD (k + 1) default).w.getD
        (o * ((add_neurons net k r).1.layers.getD (k + 1) default).in_dim + i) 0 =
      (net.layers.getD (k + 1) default).w.getD
        (o * (net.layers.getD (k + 1) default).in_dim + i) 0) ∧
    (∀ r2 : Rng, (add_neurons net (net.layers.length - 1) r2).1 = net) := by
  have hlen2 : ¬ net.layers.length < 2 := by omega
  have hk2 : ¬ net.layers.length ≤ k + 1 := by omega
  have hhid := hv.2.2.2.2.2.1 k (by omega)
  have hchk : (net.layers.getD (k + 1) default).in_dim =
      (net.layers.getD k default).out_dim := hv.2.2.2.1 k (by omega)
  have hadd := sampleNInc_mem 1 4 r (by norm_num)
  have hM : MAX_HIDDEN_UNITS = 40 := rfl
  have hout_noop : ∀ r2 : Rng, (add_neurons net (net.layers.length - 1) r2).1 = net := by
    intro r2
    simp only [add_neurons, if_neg hlen2,
      if_pos (show net.layers.length ≤ (net.layers.length - 1) + 1 by omega)]
  by_cases h3 : min ((net.layers.getD k default).out_dim + (sampleNInc 1 4 r).1)
      MAX_HIDDEN_UNITS = (net.layers.getD k default).out_dim
  · have hres : add_neurons net k r = (net, (sampleNInc 1 4 r).2) := by
      simp only [add_neurons, if_neg hlen2, if_neg hk2, if_pos h3]
    rw [hres]
    refine ⟨rfl, fun _ => rfl, ?_, hhid.2, hchk, fun o i _ _ => rfl, hout_noop⟩
    intro hlt
    exfalso
    rcases le_or_lt ((net.layers.getD k default).out_dim + (sampleNInc 1 4 r).1)
        MAX_HIDDEN_UNITS with hle1 | hlt1
    · rw [min_eq_left hle1] at h3
      omega
    · rw [min_eq_right (le_of_lt hlt1)] at h3
      omega
  · have hlt40 : (net.layers.getD k default).out_dim < MAX_HIDDEN_UNITS := by
      rcases Nat.lt_or_ge (net.layers.getD k default).out_dim MAX_HIDDEN_UNITS with hl | hg
      · exact hl
      · exact absurd (by
          rw [le_antisymm hhid.2 hg]
          exact min_eq_right (by omega)) h3
    have hgt : (net.layers.getD k default).out_dim <
        min ((net.layers.getD k default).out_dim + (sampleNInc 1 4 r).1)
          MAX_HIDDEN_UNITS := Nat.lt_min.mpr ⟨by omega, hlt40⟩
    have hmin_eq : min (net.layers.getD (k + 1) default).in_dim
        (min ((net.layers.getD k default).out_dim + (sampleNInc 1 4 r).1)
          MAX_HIDDEN_UNITS) = (net.layers.getD (k + 1) default).in_dim :=
      min_eq_left (by rw [hchk]; omega)
    refine ⟨?_, ?_, ?_, ?_, ?_, ?_, hout_noop⟩
    · simp only [add_neurons, if_neg hlen2, if_neg hk2, if_neg h3]
      simp [List.length_set]
    · intro h40
      exact absurd (by rw [h40]; exact min_eq_right (by omega)) h3
    · intro _
      simp only [add_neurons, if_neg hlen2, if_neg hk2, if_neg h3]
      rw [getD_set_set net.layers k _ _ k hk, if_pos rfl]
      exact hgt
    · simp only [add_neurons, if_neg hlen2, if_neg hk2, if_neg h3]
      rw [getD_set_set net.layers k _ _ k hk, if_pos rfl]
      exact min_le_right _ _
    · simp only [add_neurons, if_neg hlen2, if_neg hk2, if_neg h3]
      rw [getD_set_set net.layers k _ _ (k + 1) hk, if_neg (by omega), if_pos rfl,
        getD_set_set net.layers k _ _ k hk, if_pos rfl]
    · intro o i ho hi
      simp only [add_neurons, if_neg hlen2, if_neg hk2, if_neg h3]
      rw [getD_set_set net.layers k _ _ (k + 1) hk, if_neg (by omega), if_pos rfl]
      dsimp only
      rw [buildNextRows_getD _ _ _ _ (min_le_right _ _) _ _ o i
        (by simpa using ho) (by rw [hmin_eq]; exact hi)]
      rw [range_getD, if_pos ho]

/-- Witness for C6 at the concrete valid net with hidden width 20, growing
hidden layer 0. -/
theorem claim6_witness :
    Net.valid netSeven ∧ 0 + 1 < netSeven.layers.length ∧
    (add_neurons netSeven 0 zeroRng).1.layers.length = netSeven.layers.length ∧
    ((add_neurons netSeven 0 zeroRng).1.layers.getD 1 default).in_dim =
      ((add_neurons netSeven 0 zeroRng).1.layers.getD 0 default).out_dim :=
  ⟨by decide, by decide,
   (claim6_width_growth netSeven 0 zeroRng (by decide) (by decide)).1,
   (claim6_width_growth netSeven 0 zeroRng (by decide) (by decide)).2.2.2.2.1⟩

/-- C10: on a child with no hidden layer, the width-growth step of
crossover_mutate leaves the net unchanged for every randomness outcome; the
depth-growth position computation for a one-layer net returns position 0
without consuming the randomness source; and when depth growth fires on a
single 16-to-5 layer, the result has shape 16-to-w-to-5 with w between
MIN_HIDDEN_UNITS and MAX_HIDDEN_UNITS, the output layer's weight block
freshly randomized inside the interval from -0.1 (inclusive) to 0.1. -/
theorem claim10_no_hidden_child :
    (∀ (pw : ℚ) (n : Net) (r : Rng), n.layers.length < 2 →
      (width_growth_step pw n r).1 = n) ∧
    (∀ r : Rng, depth_growth_pos 1 r = (0, r)) ∧
    (∀ (n : Net) (r : Rng) (L : Layer), n.layers = [L] →
      L.in_dim = INPUT_DIM → L.out_dim = OUTPUT_DIM →
      ∃ w : Nat, MIN_HIDDEN_UNITS ≤ w ∧ w ≤ MAX_HIDDEN_UNITS ∧
        ((add_hidden_layer n 0 r).1).shape = [(INPUT_DIM, w), (w, OUTPUT_DIM)] ∧
        (∀ p, p < ((add_hidden_layer n 0 r).1.layers.getD 1 default).w.length →
          -(1/10) ≤ ((add_hidden_layer n 0 r).1.layers.getD 1 default).w.getD p 0 ∧
          ((add_hidden_layer n 0 r).1.layers.getD 1 default).w.getD p 0 < 1/10)) := by
  refine ⟨fun pw n r hlen => width_growth_step_fst_single pw n r hlen,
    fun r => rfl, ?_⟩
  intro n r L hn hin hout2
  have hred : (add_hidden_layer n 0 r).1.layers =
      [(Layer.new_random INPUT_DIM (rand_hidden_units r).1 (1/10)
          (rand_hidden_units r).2).1,
       ⟨(rand_hidden_units r).1, L.out_dim,
        (sampleList (-(1/10)) (1/10) (L.out_dim * (rand_hidden_units r).1)
          (Layer.new_random INPUT_DIM (rand_hidden_units r).1 (1/10)
            (rand_hidden_units r).2).2).1,
        L.b⟩] := by
    simp [add_hidden_layer, hn, insertAt, List.set]
  refine ⟨(rand_hidden_units r).1,
    (sampleNInc_mem MIN_HIDDEN_UNITS MAX_HIDDEN_UNITS r (by decide)).1,
    (sampleNInc_mem MIN_HIDDEN_UNITS MAX_HIDDEN_UNITS r (by decide)).2, ?_, ?_⟩
  · show ((add_hidden_layer n 0 r).1).layers.map Layer.shape = _
    rw [hred]
    simp [Layer.shape, Layer.new_random, hout2]
  · intro p hp
    rw [hred] at hp ⊢
    simp only [List.getD_cons_succ, List.getD_cons_zero] at hp ⊢
    exact sampleList_mem (-(1/10)) (1/10) (by norm_num) _ _ _
      (by rw [List.getD_eq_getElem _ _ hp]; exact List.getElem_mem _)

/-- Witness for C10 at the concrete single-layer 16-to-5 net. -/
theorem claim10_witness :
    netSingle.layers.length < 2 ∧
    (width_growth_step 1 netSingle zeroRng).1 = netSingle ∧
    depth_growth_pos 1 zeroRng = (0, zeroRng) ∧
    ∃ w : Nat, MIN_HIDDEN_UNITS ≤ w ∧ w ≤ MAX_HIDDEN_UNITS ∧
      ((add_hidden_layer netSingle 0 zeroRng).1).shape =
        [(INPUT_DIM, w), (w, OUTPUT_DIM)] ∧
      (∀ p, p < ((add_hidden_layer netSingle 0 zeroRng).1.layers.getD 1 default).w.length →
        -(1/10) ≤ ((add_hidden_layer netSingle 0 zeroRng).1.layers.getD 1 default).w.getD p 0 ∧
        ((add_hidden_layer netSingle 0 zeroRng).1.layers.getD 1 default).w.getD p 0 < 1/10) :=
  ⟨by decide,
   claim10_no_hidden_child.1 1 netSingle zeroRng (by decide),
   claim10_no_hidden_child.2.1 zeroRng,
   claim10_no_hidden_child.2.2 netSingle zeroRng
     ⟨INPUT_DIM, OUTPUT_DIM, List.replicate (OUTPUT_DIM * INPUT_DIM) 7,
      List.replicate OUTPUT_DIM 7⟩ rfl rfl rfl⟩

end Ceberus
